import Mathlib

/-!
# Ignore-pattern masking, renderer gateway and the Python profile

A shallow embedding of `internal/lint/html.go` (`applyPatterns`, `post`) and of
`internal/lint/code/py.go` (`Python`).

Go strings are modelled as lists of characters.  The libraries the code calls
(the glob wrapper, the `regexp2` engine, template expansion of the standard
`regexp` package, `fmt.Sprintf`) are parameters collected in `Libs`; the
general theorems hold for every such library, and `demoLibs` is a small
executable instance used to evaluate the code on concrete documents.
-/

namespace Vale

/-- Go strings as character lists. -/
abbrev Str := List Char

/-! ## String helpers of the Go standard library -/

/-- The call `strings.HasSuffix(s, suffix)`. -/
def hasSuffix (s suffix : Str) : Bool :=
  suffix.reverse.isPrefixOf s.reverse

/-- The split of `s` at the first occurrence of a non-empty `old`:
the text before the occurrence and the text after it. -/
def cutFirst (old : Str) : Str → Option (Str × Str)
  | [] => none
  | c :: s =>
    if old.isPrefixOf (c :: s) then some ([], (c :: s).drop old.length)
    else match cutFirst old s with
      | some (a, b) => some (c :: a, b)
      | none => none

/-- The call `strings.Replace(s, old, new, 1)`: an empty `old` matches at the
beginning of the string, otherwise the first occurrence of `old` is replaced
and a string without an occurrence is returned as is. -/
def replaceFirst (s old new : Str) : Str :=
  match old with
  | [] => new ++ s
  | _ :: _ =>
    match cutFirst old s with
    | some (a, b) => a ++ new ++ b
    | none => s

/-- The call `strings.Split(s, "\n")`. -/
def lines : Str → List Str
  | [] => [[]]
  | c :: s =>
    if c = '\n' then [] :: lines s
    else match lines s with
      | [] => [[c]]
      | l :: ls => (c :: l) :: ls

/-- The call `strings.Join(ls, "\n")`. -/
def joinLines : List Str → Str
  | [] => []
  | [l] => l
  | l :: ls => l ++ '\n' :: joinLines ls

/-- The number of newline characters of a text. -/
def newlines (s : Str) : Nat := s.count '\n'

/-- The number of lines of a text: `len(strings.Split(s, "\n"))`. -/
def lineCount (s : Str) : Nat := (lines s).length

/-! ## Front matter: `reFrontMatter`

`^(?s)(?:---|\+\+\+)\n(.+?)\n(?:---|\+\+\+)` -/

/-- One of the alternatives `---` and `\+\+\+` at the head of the text: the
fence that was read and the text after it. -/
def stripFence : Str → Option (Str × Str)
  | '-' :: '-' :: '-' :: r => some (['-', '-', '-'], r)
  | '+' :: '+' :: '+' :: r => some (['+', '+', '+'], r)
  | _ => none

/-- The tail `\n(?:---|\+\+\+)` of the expression at the head of the text. -/
def closeFence : Str → Option (Str × Str)
  | '\n' :: r => stripFence r
  | _ => none

/-- The lazy group `(.+?)` followed by the closing fence: the shortest
non-empty capture after which the closing fence matches.  Returns the
capture, the closing fence and the text after the match. -/
def lazyBody : Str → Option (Str × Str × Str)
  | [] => none
  | c :: t =>
    match closeFence t with
    | some (fence, rest) => some ([c], fence, rest)
    | none =>
      match lazyBody t with
      | some (cap, fence, rest) => some (c :: cap, fence, rest)
      | none => none

/-- A match of `reFrontMatter`. -/
structure FrontMatter where
  /-- The whole matched text, group 0. -/
  whole : Str
  /-- The text captured by group 1. -/
  capture : Str
  /-- The text after the match. -/
  rest : Str
  deriving DecidableEq, Repr

/-- The only match `reFrontMatter` can have: the expression is anchored at the
beginning of the text by `^`. -/
def reFrontMatterFind (content : Str) : Option FrontMatter :=
  match stripFence content with
  | some (op, '\n' :: body) =>
    match lazyBody body with
    | some (cap, cl, rest) =>
      some ⟨op ++ ['\n'] ++ cap ++ ['\n'] ++ cl, cap, rest⟩
    | none => none
  | _ => none

/-- One of the two fences of a front-matter block. -/
def isFence (x : Str) : Prop := x = ['-', '-', '-'] ∨ x = ['+', '+', '+']

instance (x : Str) : Decidable (isFence x) :=
  inferInstanceAs (Decidable (x = ['-', '-', '-'] ∨ x = ['+', '+', '+']))

/-! ## The libraries the code calls -/

/-- One match of a `regexp2` pattern in a text, together with the unmatched
text that precedes it. -/
structure Match where
  /-- The text between the end of the previous match (or the beginning of the
  input) and this match. -/
  gap : Str
  /-- The matched text, group 0 (`c[0]` in the code). -/
  whole : Str
  /-- The texts of the capture groups 1, 2, ... -/
  subs : List Str
  deriving DecidableEq, Repr

/-- The libraries and the helpers of package `core` that `applyPatterns` and
`post` call and whose code is not part of the sources.  They are parameters of
the embedding. -/
structure Libs where
  /-- Go's `error` values. -/
  Err : Type
  /-- A compiled glob of `internal/glob`. -/
  Glob : Type
  /-- A compiled pattern of `regexp2`. -/
  Pat : Type
  /-- The call `glob.Compile(syntax)`. -/
  globCompile : Str → Except Err Glob
  /-- The call `sec.MatchAny(exts)`. -/
  matchAny : Glob → List Str → Bool
  /-- The call `regexp2.CompileStd(r)`; a failure carries `errc.Error()`. -/
  compileStd : Str → Except Str Pat
  /-- The successive non-overlapping matches of a pattern in a text, in
  document order, and the unmatched text after the last match. -/
  findAll : Pat → Str → List Match × Str
  /-- The text `pat.Replace` inserts for one match, given the replacement
  template. -/
  expand : Pat → Str → Match → Str
  /-- An internal fault of `pat.Replace(s, repl, 0, -1)`, if the engine has one
  on this call: the string it returns and `err.Error()`. -/
  replaceFault : Pat → Str → Str → Option (Str × Str)
  /-- Template expansion of the standard `regexp` package
  (`Regexp.ReplaceAllString`): the template and the texts of groups 0, 1. -/
  expandStd : Str → Str → Str → Str
  /-- The call `fmt.Sprintf(format, arg)` with one string argument. -/
  sprintf : Str → Str → Str
  /-- The call `core.NewE201FromTarget(msg, target, path)`. -/
  newE201FromTarget : Str → Str → Str → Err
  /-- The call `core.NewE100(context, err)`. -/
  newE100 : Str → Err → Err
  /-- The call `errors.New(text)`. -/
  errorsNew : Str → Err

/-- The text a list of matches and the trailing text were found in. -/
def unsplice (r : List Match × Str) : Str :=
  (r.1.flatMap fun m => m.gap ++ m.whole) ++ r.2

/-- The call `pat.FindAllStringSubmatch(s, -1)`. -/
def FindAllStringSubmatch (L : Libs) (pat : L.Pat) (s : Str) : List (Str × List Str) :=
  (L.findAll pat s).1.map fun m => (m.whole, m.subs)

/-- The call `pat.Replace(s, repl, 0, -1)`: every match is replaced by the
expansion of the template and the unmatched text is kept; the result is the
returned string and the error message, if any. -/
def Replace (L : Libs) (pat : L.Pat) (s repl : Str) : Str × Option Str :=
  match L.replaceFault pat s repl with
  | some (out, msg) => (out, some msg)
  | none =>
    (((L.findAll pat s).1.flatMap fun m => m.gap ++ L.expand pat repl m)
      ++ (L.findAll pat s).2, none)

/-- The call `reFrontMatter.ReplaceAllString(content, repl)`. -/
def reFrontMatterReplaceAllString (L : Libs) (content repl : Str) : Str :=
  match reFrontMatterFind content with
  | some m => L.expandStd repl m.whole m.capture ++ m.rest
  | none => content

/-- Modelled from the spec: `core.Indent` is not among the sources.  It
indents the text by a fixed margin: every line of the text is prefixed by
`indent`. -/
def Indent (text indent : Str) : Str :=
  joinLines ((lines text).map fun l => indent ++ l)

/-! ## The data model -/

/-- The fields of `core.File` the code reads. -/
structure File where
  Path : Str
  Content : Str
  NormedExt : Str
  RealExt : Str
  deriving DecidableEq, Repr

/-- The command-line flags of the configuration. -/
structure CLIFlags where
  Path : Str
  Built : Str
  deriving DecidableEq, Repr

/-- The fields of `core.Config` the code reads.  The two maps from a syntax
glob to its patterns are given as the list of their entries in the order in
which the `range` loop visits them. -/
structure Config where
  BlockIgnores : List (Str × List Str)
  TokenIgnores : List (Str × List Str)
  Flags : CLIFlags
  deriving DecidableEq, Repr

/-- The configuration manager of the linter. -/
structure Manager where
  Config : Config
  deriving DecidableEq, Repr

/-- The linter. -/
structure Linter where
  Manager : Manager
  deriving DecidableEq, Repr

/-! ## `applyPatterns` -/

/-- The four spaces of padding of the literal block. -/
def padding : Str := [' ', ' ', ' ', ' ']

/-- The extension that selects the padded path. -/
def rstExt : Str := ['.', 'r', 's', 't']

/-- The loop over the matches on the padded path (lines 54 to 57): each match
is wrapped, indented, into the block template and one occurrence of its text
is replaced. -/
def rstLoop (L : Libs) (block : Str) : List (Str × List Str) → Str → Str
  | [], s => s
  | c :: cs, s =>
    let sec := L.sprintf block (Indent c.1 padding)
    rstLoop L block cs (replaceFirst s c.1 sec)

/-- The loop over the patterns of one block entry (lines 44 to 68). -/
def blockRegexes (L : Libs) (l : Linter) (f : File) (block : Str) :
    List Str → Str → Str × Option L.Err
  | [], s => (s, none)
  | r :: rs, s =>
    match L.compileStd r with
    | .error errc =>
      (s, some (L.newE201FromTarget errc r l.Manager.Config.Flags.Path))
    | .ok pat =>
      if hasSuffix f.NormedExt rstExt then
        blockRegexes L l f block rs
          (rstLoop L block (FindAllStringSubmatch L pat s) s)
      else
        match Replace L pat s block with
        | (s1, some err) =>
          (s1, some (L.newE201FromTarget err r l.Manager.Config.Flags.Path))
        | (s1, none) => blockRegexes L l f block rs s1

/-- The loop over the entries of `BlockIgnores` (lines 39 to 70). -/
def blockLoop (L : Libs) (l : Linter) (f : File) (block : Str) (exts : List Str) :
    List (Str × List Str) → Str → Str × Option L.Err
  | [], s => (s, none)
  | (syntx, regexes) :: rest, s =>
    match L.globCompile syntx with
    | .error err => (s, some err)
    | .ok sec =>
      if L.matchAny sec exts then
        match blockRegexes L l f block regexes s with
        | (s1, some err) => (s1, some err)
        | (s1, none) => blockLoop L l f block exts rest s1
      else blockLoop L l f block exts rest s

/-- The loop over the patterns of one token entry (lines 77 to 94). -/
def tokenRegexes (L : Libs) (l : Linter) (inline : Str) :
    List Str → Str → Str × Option L.Err
  | [], s => (s, none)
  | r :: rs, s =>
    match L.compileStd r with
    | .error errc =>
      (s, some (L.newE201FromTarget errc r l.Manager.Config.Flags.Path))
    | .ok pat =>
      match Replace L pat s inline with
      | (s1, some err) =>
        (s1, some (L.newE201FromTarget err r l.Manager.Config.Flags.Path))
      | (s1, none) => tokenRegexes L l inline rs s1

/-- The loop over the entries of `TokenIgnores` (lines 72 to 96). -/
def tokenLoop (L : Libs) (l : Linter) (inline : Str) (exts : List Str) :
    List (Str × List Str) → Str → Str × Option L.Err
  | [], s => (s, none)
  | (syntx, regexes) :: rest, s =>
    match L.globCompile syntx with
    | .error err => (s, some err)
    | .ok sec =>
      if L.matchAny sec exts then
        match tokenRegexes L l inline regexes s with
        | (s1, some err) => (s1, some err)
        | (s1, none) => tokenLoop L l inline exts rest s1
      else tokenLoop L l inline exts rest s

/-- The method `(*Linter).applyPatterns`: the masked text and the error. -/
def applyPatterns (L : Libs) (l : Linter) (f : File) (block inline : Str) :
    Str × Option L.Err :=
  let s := reFrontMatterReplaceAllString L f.Content block
  let exts := [f.NormedExt, f.RealExt]
  match blockLoop L l f block exts l.Manager.Config.BlockIgnores s with
  | (s1, some err) => (s1, some err)
  | (s1, none) => tokenLoop L l inline exts l.Manager.Config.TokenIgnores s1

/-! ## The replacements a run performs

Each replacement is recorded as the pair of the text that is replaced and the
text that is inserted for it. -/

/-- The replacement of the front matter, if the document has one. -/
def frontMatterEdits (L : Libs) (content repl : Str) : List (Str × Str) :=
  match reFrontMatterFind content with
  | some m => [(m.whole, L.expandStd repl m.whole m.capture)]
  | none => []

/-- The replacements of one call `pat.Replace(s, repl, 0, -1)`: one for each
match, none when the call faults. -/
def replaceEdits (L : Libs) (pat : L.Pat) (s repl : Str) : List (Str × Str) :=
  match L.replaceFault pat s repl with
  | some _ => []
  | none => (L.findAll pat s).1.map fun m => (m.whole, L.expand pat repl m)

/-- The replacements of the loop over the matches on the padded path: one for
each iteration whose `strings.Replace` finds the text of the match. -/
def rstEdits (L : Libs) (block : Str) : List (Str × List Str) → Str → List (Str × Str)
  | [], _ => []
  | c :: cs, s =>
    (if c.1 = [] ∨ (cutFirst c.1 s).isSome then
      [(c.1, L.sprintf block (Indent c.1 padding))] else [])
    ++ rstEdits L block cs (replaceFirst s c.1 (L.sprintf block (Indent c.1 padding)))

/-- The replacements of the loop over the patterns of one block entry. -/
def blockRegexesEdits (L : Libs) (l : Linter) (f : File) (block : Str) :
    List Str → Str → List (Str × Str)
  | [], _ => []
  | r :: rs, s =>
    match L.compileStd r with
    | .error _ => []
    | .ok pat =>
      if hasSuffix f.NormedExt rstExt then
        rstEdits L block (FindAllStringSubmatch L pat s) s
          ++ blockRegexesEdits L l f block rs
              (rstLoop L block (FindAllStringSubmatch L pat s) s)
      else
        replaceEdits L pat s block ++
          match Replace L pat s block with
          | (_, some _) => []
          | (s1, none) => blockRegexesEdits L l f block rs s1

/-- The replacements of the loop over the entries of `BlockIgnores`. -/
def blockLoopEdits (L : Libs) (l : Linter) (f : File) (block : Str) (exts : List Str) :
    List (Str × List Str) → Str → List (Str × Str)
  | [], _ => []
  | (syntx, regexes) :: rest, s =>
    match L.globCompile syntx with
    | .error _ => []
    | .ok sec =>
      if L.matchAny sec exts then
        blockRegexesEdits L l f block regexes s ++
          match blockRegexes L l f block regexes s with
          | (_, some _) => []
          | (s1, none) => blockLoopEdits L l f block exts rest s1
      else blockLoopEdits L l f block exts rest s

/-- The replacements of the loop over the patterns of one token entry. -/
def tokenRegexesEdits (L : Libs) (l : Linter) (inline : Str) :
    List Str → Str → List (Str × Str)
  | [], _ => []
  | r :: rs, s =>
    match L.compileStd r with
    | .error _ => []
    | .ok pat =>
      replaceEdits L pat s inline ++
        match Replace L pat s inline with
        | (_, some _) => []
        | (s1, none) => tokenRegexesEdits L l inline rs s1

/-- The replacements of the loop over the entries of `TokenIgnores`. -/
def tokenLoopEdits (L : Libs) (l : Linter) (inline : Str) (exts : List Str) :
    List (Str × List Str) → Str → List (Str × Str)
  | [], _ => []
  | (syntx, regexes) :: rest, s =>
    match L.globCompile syntx with
    | .error _ => []
    | .ok sec =>
      if L.matchAny sec exts then
        tokenRegexesEdits L l inline regexes s ++
          match tokenRegexes L l inline regexes s with
          | (_, some _) => []
          | (s1, none) => tokenLoopEdits L l inline exts rest s1
      else tokenLoopEdits L l inline exts rest s

/-- All replacements of one run of `applyPatterns`, in the order in which they
are performed. -/
def applyPatternsEdits (L : Libs) (l : Linter) (f : File) (block inline : Str) :
    List (Str × Str) :=
  let s := reFrontMatterReplaceAllString L f.Content block
  let exts := [f.NormedExt, f.RealExt]
  frontMatterEdits L f.Content block ++
    blockLoopEdits L l f block exts l.Manager.Config.BlockIgnores s ++
    match blockLoop L l f block exts l.Manager.Config.BlockIgnores s with
    | (_, some _) => []
    | (s1, none) => tokenLoopEdits L l inline exts l.Manager.Config.TokenIgnores s1

/-! ## `post` -/

/-- An HTTP request: the fields `post` sets. -/
structure Request where
  Method : Str
  URL : Str
  Body : Str
  Header : List (Str × Str)
  deriving DecidableEq, Repr

/-- An HTTP response: the status code and the bytes `io.ReadAll` reads from
the body. -/
structure Response where
  StatusCode : Int
  Body : Str
  deriving DecidableEq, Repr

/-- The method `Header.Set`: the entry of the key is replaced. -/
def Request.setHeader (req : Request) (key value : Str) : Request :=
  { req with Header := (req.Header.filter fun kv => kv.1 ≠ key) ++ [(key, value)] }

/-- The method `(*Linter).post`.  `newRequest` is `http.NewRequestWithContext`
with the background context and `client` is `l.client.Do`. -/
def post (L : Libs) (newRequest : Str → Str → Str → Except L.Err Request)
    (client : Request → Except L.Err Response) (f : File) (text url : Str) :
    Str × Option L.Err :=
  match newRequest "POST".toList url text with
  | .error err => ([], some (L.newE100 f.Path err))
  | .ok req =>
    let req1 := req.setHeader "Content-Type".toList "text/plain".toList
    let req2 := req1.setHeader "Accept".toList "text/plain".toList
    match client req2 with
    | .error err => ([], some (L.newE100 f.Path err))
    | .ok resp =>
      if resp.StatusCode = 200 then (resp.Body, none)
      else ([], some (L.newE100 f.Path (L.errorsNew "bad status".toList)))

/-! ## The Python profile -/

/-- The grammars of the structural parser. -/
inductive Grammar where
  | python
  deriving DecidableEq, Repr

/-- The type `Language`: the text of the delimiter expression, the grammar and
the queries. -/
structure Language where
  Delims : Str
  Parser : Grammar
  Queries : List Str
  deriving DecidableEq, Repr

/-- The function `Python`. -/
def Python : Language where
  Delims := "#\\s?|\\s*\"\"\"\\s*|\\s*'''\\s*".toList
  Parser := Grammar.python
  Queries := [
    "(comment)+ @comment".toList,
    ("((function_definition\n  body: (block . (expression_statement (string) @docstring)))\n"
      ++ " (#offset! @docstring 0 3 0 -3))").toList,
    ("((class_definition\n  body: (block . (expression_statement (string) @rst)))\n"
      ++ " (#offset! @rst 0 3 0 -3))").toList,
    ("((module . (expression_statement (string) @rst))\n"
      ++ " (#offset! @rst 0 3 0 -3))").toList]

/-- An offset adjustment of a capture: the changes of the start row, the start
column, the end row and the end column. -/
structure Offset where
  startRow : Int
  startCol : Int
  endRow : Int
  endCol : Int
  deriving DecidableEq, Repr

/-- The span of a node in the source: rows and columns, counted from 0. -/
structure Span where
  startRow : Nat
  startCol : Nat
  endRow : Nat
  endCol : Nat
  deriving DecidableEq, Repr

/-- The bytes of a Go string or of a source file. -/
abbrev Bytes := List Nat

/-- The UTF-8 encoding of a character. -/
def utf8Bytes (c : Char) : Bytes :=
  if c.toNat < 0x80 then [c.toNat]
  else if c.toNat < 0x800 then [0xC0 + c.toNat / 0x40, 0x80 + c.toNat % 0x40]
  else if c.toNat < 0x10000 then
    [0xE0 + c.toNat / 0x1000, 0x80 + c.toNat / 0x40 % 0x40, 0x80 + c.toNat % 0x40]
  else
    [0xF0 + c.toNat / 0x40000, 0x80 + c.toNat / 0x1000 % 0x40,
      0x80 + c.toNat / 0x40 % 0x40, 0x80 + c.toNat % 0x40]

/-- The bytes of a text. -/
def bytesOf (s : Str) : Bytes := s.flatMap utf8Bytes

/-- The rows of a source: its bytes, split at the newline byte. -/
def byteRows : Bytes → List Bytes
  | [] => [[]]
  | b :: s =>
    if b = 10 then [] :: byteRows s
    else match byteRows s with
      | [] => [[b]]
      | l :: ls => (b :: l) :: ls

/-- Rows put together again, with a newline byte between two rows. -/
def joinRows : List Bytes → Bytes
  | [] => []
  | [l] => l
  | l :: ls => l ++ 10 :: joinRows ls

/-- The tokens of a query after its first word: the text of the word that
begins the text, and the tokens that follow it.  Parentheses are tokens of
their own and blanks separate tokens. -/
def scanTokens : Str → Str × List Str
  | [] => ([], [])
  | c :: s =>
    if c = '(' ∨ c = ')' then
      ([], [c] :: (if (scanTokens s).1 = [] then (scanTokens s).2
        else (scanTokens s).1 :: (scanTokens s).2))
    else if c = ' ' ∨ c = '\n' ∨ c = '\t' then
      ([], if (scanTokens s).1 = [] then (scanTokens s).2
        else (scanTokens s).1 :: (scanTokens s).2)
    else (c :: (scanTokens s).1, (scanTokens s).2)

/-- The tokens of the text of a query. -/
def tokens (q : Str) : List Str :=
  if (scanTokens q).1 = [] then (scanTokens q).2 else (scanTokens q).1 :: (scanTokens q).2

/-- The value of a decimal numeral. -/
def parseNat (s : Str) : Option Nat :=
  if s ≠ [] ∧ s.all Char.isDigit then
    some (s.foldl (fun n c => 10 * n + (c.toNat - '0'.toNat)) 0)
  else none

/-- The value of a decimal numeral with an optional minus sign. -/
def parseInt : Str → Option Int
  | '-' :: s => (parseNat s).map fun n => -(n : Int)
  | s => (parseNat s).map fun n => (n : Int)

/-- A capture name: a token that begins with `@`. -/
def isCapture : Str → Bool
  | '@' :: _ => true
  | _ => false

/-- A node pattern with its capture at the head of the tokens: `(type) @name`
or, with a quantifier, `(type)+ @name`.  Returns the node type and the
capture. -/
def bindingAt : List Str → Option (Str × Str)
  | o :: ty :: c :: x :: rest =>
    if o = ['('] ∧ c = [')'] then
      if isCapture x then some (ty, x)
      else match rest with
        | y :: _ => if x = ['+'] ∧ isCapture y then some (ty, y) else none
        | [] => none
    else none
  | _ => none

/-- Modelled from the spec: the code that reads a query is not among the
sources.  The capture of a query is the first node pattern that is followed
by a capture name: the type of the captured node and the capture. -/
def captureBinding : List Str → Option (Str × Str)
  | [] => none
  | t :: ts =>
    match bindingAt (t :: ts) with
    | some r => some r
    | none => captureBinding ts

/-- The directive `(#offset! @capture a b c d)` at the head of the tokens. -/
def directiveAt : List Str → Option (Str × Offset)
  | o :: h :: cap :: a :: b :: c :: d :: cl :: _ =>
    if o = ['('] ∧ h = "#offset!".toList ∧ isCapture cap ∧ cl = [')'] then
      match parseInt a, parseInt b, parseInt c, parseInt d with
      | some a, some b, some c, some d => some (cap, ⟨a, b, c, d⟩)
      | _, _, _, _ => none
    else none
  | _ => none

/-- The first offset directive among the tokens. -/
def offsetIn : List Str → Option (Str × Offset)
  | [] => none
  | t :: ts =>
    match directiveAt (t :: ts) with
    | some r => some r
    | none => offsetIn ts

/-- Modelled from the spec: the code that reads a query is not among the
sources.  The offset adjustment a query carries is the directive
`(#offset! @capture a b c d)` of its text: the capture it applies to and the
four numbers; a query without the directive carries none. -/
def queryOffset (q : Str) : Option (Str × Offset) := offsetIn (tokens q)

/-- Modelled from the spec: the code that applies an offset adjustment is not
among the sources.  The adjustment is added to the rows and columns of the
span of the capture. -/
def Offset.apply (o : Offset) (sp : Span) : Span :=
  ⟨(sp.startRow + o.startRow).toNat, (sp.startCol + o.startCol).toNat,
   (sp.endRow + o.endRow).toNat, (sp.endCol + o.endCol).toNat⟩

/-- The text of a span of the source: from the start column of the start row
to the end column of the end row, columns counted in bytes. -/
def spanText (source : Bytes) (sp : Span) : Bytes :=
  match ((byteRows source).drop sp.startRow).take (sp.endRow + 1 - sp.startRow) with
  | [] => []
  | [row] => (row.take sp.endCol).drop sp.startCol
  | row :: more =>
    joinRows (row.drop sp.startCol :: more.dropLast ++ [(more.getLastD []).take sp.endCol])

/-- Modelled from the spec: the code that runs a query is not among the
sources.  The text a query yields for the node its capture is bound to: the
text of the span of the node, adjusted by the offset the query carries for
that capture; a query without a capture yields nothing. -/
def adjustedCapture (q : Str) (source : Bytes) (node : Span) : Option Bytes :=
  match captureBinding (tokens q) with
  | none => none
  | some (_, cap) =>
    match queryOffset q with
    | some (target, o) =>
      if target = cap then some (spanText source (o.apply node))
      else some (spanText source node)
    | none => some (spanText source node)

/-- The row and the column of the first occurrence of a text in a source read
from the given row and column on. -/
def locate (needle : Bytes) : Bytes → Nat → Nat → Option (Nat × Nat)
  | [], _, _ => none
  | b :: s, row, col =>
    if needle.isPrefixOf (b :: s) then some (row, col)
    else if b = 10 then locate needle s (row + 1) 0
    else locate needle s row (col + 1)

/-- The span of the first occurrence in a source of a text without
newlines. -/
def spanOfFirst (needle source : Bytes) : Option Span :=
  (locate needle source 0 0).map fun rc => ⟨rc.1, rc.2, rc.1, rc.2 + needle.length⟩

/-! ## An executable instance of the libraries

Each function below follows the documented behaviour of its library on a
fragment of its inputs, named in its comment; the concrete evaluations
further down stay inside these fragments. -/

/-- Error values of the instance: a plain message (`errors.New`, library
errors) and the two constructors of package `core` applied to their
arguments. -/
inductive DemoErr where
  | text (msg : Str)
  | e201 (msg target path : Str)
  | e100 (context : Str) (err : DemoErr)
  deriving DecidableEq, Repr

/-- Glob matching for patterns made of literal characters and the wildcard
`*`, which stands for any sequence of characters. -/
def globMatch : Str → Str → Bool
  | [], s => s.isEmpty
  | c :: p, s =>
    if c = '*' then
      (List.range (s.length + 1)).any fun k => globMatch p (s.drop k)
    else
      match s with
      | [] => false
      | d :: t => c == d && globMatch p t

/-- The characters with a special meaning in a glob other than `*`. -/
def globSpecial : Str := ['[', ']', '{', '}', '?', '\\', '!']

/-- Compilation of a glob in the instance: patterns of literal characters and
`*` are accepted as they are; the instance does not cover the other special
characters and rejects them. -/
def demoGlobCompile (p : Str) : Except DemoErr Str :=
  if p.any (fun c => globSpecial.contains c) then
    .error (.text "glob: pattern outside the covered fragment".toList)
  else .ok p

/-- The message of `regexp2` for the pattern `(`, whose group is never
closed. -/
def missingParen : Str := "error parsing regexp: missing closing ) in `(`".toList

/-- Compilation of a pattern in the instance: non-empty patterns of letters,
digits and blanks are accepted (they match themselves); `(` is a syntax
error; the instance does not cover other patterns and rejects them. -/
def demoCompileStd (r : Str) : Except Str Str :=
  if r = ['('] then .error missingParen
  else if r ≠ [] ∧ r.all (fun c => c.isAlphanum || c == ' ') then .ok r
  else .error "regexp: pattern outside the covered fragment".toList

/-- The successive occurrences of a literal text, from left to right and
without overlap; `fuel` bounds the number of occurrences. -/
def literalScan (p : Str) : Nat → Str → List Match × Str
  | 0, s => ([], s)
  | fuel + 1, s =>
    match cutFirst p s with
    | none => ([], s)
    | some (a, b) => (⟨a, p, []⟩ :: (literalScan p fuel b).1, (literalScan p fuel b).2)

/-- Substitution of `regexp2` for a pattern without capture groups: `$$` is a
dollar sign, `$0` and `$&` are the matched text, and a `$` before the number
of a group the pattern does not have is literal text. -/
def demoExpand (whole : Str) : Str → Str
  | [] => []
  | '$' :: '$' :: t => '$' :: demoExpand whole t
  | '$' :: '0' :: t => whole ++ demoExpand whole t
  | '$' :: '&' :: t => whole ++ demoExpand whole t
  | c :: t => c :: demoExpand whole t

/-- The characters of a group name in a template of package `regexp`
(letters, digits and the underscore; the instance covers the ASCII ones). -/
def isNameChar (c : Char) : Bool := c.isAlphanum || c == '_'

/-- The text a template reference `$name` stands for when the expression has
the groups 0 and 1 and no named group: a number without a leading zero selects
its group, every other name is empty. -/
def groupText (whole cap name : Str) : Str :=
  if name = ['0'] then whole
  else if name = ['1'] then cap
  else []

/-- The method `Regexp.Expand` of package `regexp` for an expression with the
groups 0 and 1: `$$` is a dollar sign, `$name` and `${name}` are replaced by
the group, where the name is the longest run of name characters, and a
malformed reference leaves the `$` as text.  `fuel` bounds the number of
steps; the length of the template is enough. -/
def stdExpand (whole cap : Str) : Nat → Str → Str
  | 0, t => t
  | _ + 1, [] => []
  | fuel + 1, c :: t =>
    if c ≠ '$' then c :: stdExpand whole cap fuel t
    else match t with
      | '$' :: t1 => '$' :: stdExpand whole cap fuel t1
      | '{' :: t1 =>
        match t1.span isNameChar with
        | (name, '}' :: t2) =>
          if name = [] then '$' :: stdExpand whole cap fuel t
          else groupText whole cap name ++ stdExpand whole cap fuel t2
        | _ => '$' :: stdExpand whole cap fuel t
      | _ =>
        match t.span isNameChar with
        | ([], _) => '$' :: stdExpand whole cap fuel t
        | (name, t2) => groupText whole cap name ++ stdExpand whole cap fuel t2

/-- The function `fmt.Sprintf` with one string operand, for formats whose
verbs are `%s`, `%v` and `%%`: the first verb prints the operand, a later one
reports a missing operand, and an operand no verb used is reported at the
end. -/
def demoSprintf (arg : Str) : Bool → Str → Str
  | used, [] => if used then [] else "%!(EXTRA string=".toList ++ arg ++ [')']
  | used, '%' :: '%' :: t => '%' :: demoSprintf arg used t
  | used, '%' :: 's' :: t =>
    (if used then "%!s(MISSING)".toList else arg) ++ demoSprintf arg true t
  | used, '%' :: 'v' :: t =>
    (if used then "%!v(MISSING)".toList else arg) ++ demoSprintf arg true t
  | used, c :: t => c :: demoSprintf arg used t

/-- The executable instance. -/
def demoLibs : Libs where
  Err := DemoErr
  Glob := Str
  Pat := Str
  globCompile := demoGlobCompile
  matchAny := fun g exts => exts.any (globMatch g)
  compileStd := demoCompileStd
  findAll := fun p s => literalScan p s.length s
  expand := fun _ repl m => demoExpand m.whole repl
  replaceFault := fun _ _ _ => none
  expandStd := fun repl whole cap => stdExpand whole cap repl.length repl
  sprintf := fun format arg => demoSprintf arg false format
  newE201FromTarget := DemoErr.e201
  newE100 := DemoErr.e100
  errorsNew := DemoErr.text

instance : DecidableEq demoLibs.Err := inferInstanceAs (DecidableEq DemoErr)

/-! ## Concrete documents and configurations -/

/-- The block template of the Markdown linter. -/
def mdBlock : Str := "\n```\n$1\n```\n".toList

/-- The inline template of the Markdown linter. -/
def mdInline : Str := "`$1`".toList

/-- The block template of the reStructuredText linter. -/
def rstBlock : Str := "\n::\n\n%s\n".toList

/-- The inline template of the reStructuredText linter. -/
def rstInline : Str := "``$1``".toList

/-- A linter with the given ignore rules, configured from `.vale.ini`. -/
def linterWith (blocks tokens : List (Str × List Str)) : Linter :=
  ⟨⟨⟨blocks, tokens, ⟨".vale.ini".toList, []⟩⟩⟩⟩

/-- A Markdown document with front matter. -/
def frontMatterDoc : File :=
  ⟨"README.md".toList, "---\nkey: val\n---\nBody text".toList, ".md".toList, ".md".toList⟩

/-- Rules that apply to reStructuredText documents only. -/
def rstOnlyRules : List (Str × List Str) := [("*.rst".toList, ["code".toList])]

/-- A plain Markdown document under rules for reStructuredText. -/
def plainDoc : File :=
  ⟨"README.md".toList, "Body text".toList, ".md".toList, ".md".toList⟩

/-- A request constructor that accepts every URL. -/
def plainRequest (method url body : Str) : Except DemoErr Request :=
  .ok ⟨method, url, body, []⟩

/-- A renderer that rejects every request with the given status. -/
def rejectingClient (status : Int) (_ : Request) : Except DemoErr Response :=
  .ok ⟨status, "Internal Server Error".toList⟩

/-- A function whose first statement is the docstring `Hello.`. -/
def helloSource : Bytes := bytesOf "def f():\n    \"\"\"Hello.\"\"\"\n".toList

/-- The span of the string node of `helloSource`: row 1, columns 4 to 16. -/
def helloSpan : Span := ⟨1, 4, 1, 16⟩

/-- A class whose first statement is a docstring with a letter of two
bytes. -/
def classSource : Bytes := bytesOf "class A:\n  '''Caf\u00e9 of A.'''\n".toList

/-- One block rule for every document: the literal span `code`. -/
def codeRule : List (Str × List Str) := [("*".toList, ["code".toList])]

/-- A reStructuredText document. -/
def rstDoc : File :=
  ⟨"index.rst".toList, "some code here".toList, ".rst".toList, ".rst".toList⟩

/-- A Markdown document with the content of `rstDoc`. -/
def mdDoc : File :=
  ⟨"index.md".toList, "some code here".toList, ".md".toList, ".md".toList⟩

/-- A document whose real extension is `.rst` and whose normalized extension
is `.md` (a project that maps `rst` files to the Markdown format). -/
def realRstDoc : File :=
  ⟨"guide.rst".toList, "some code here".toList, ".md".toList, ".rst".toList⟩

/-- A document whose real extension is `.md` and whose normalized extension
is `.rst` (a project that maps `md` files to the reStructuredText format). -/
def normedRstDoc : File :=
  ⟨"guide.md".toList, "some code here".toList, ".rst".toList, ".md".toList⟩

/-- A reStructuredText document in which the span `code` occurs twice. -/
def twiceDoc : File :=
  ⟨"index.rst".toList, "code code".toList, ".rst".toList, ".rst".toList⟩

/-- A block entry for Markdown whose second pattern does not compile. -/
def brokenRules : List (Str × List Str) :=
  [("*.md".toList, ["code".toList, "(".toList, "here".toList])]

/-- A Markdown document of five lines with front matter. -/
def fiveLineDoc : File :=
  ⟨"notes.md".toList, "---\nkey: val\n---\nsome code here\nend".toList, ".md".toList,
    ".md".toList⟩

/-! ## Facts about the front matter -/

theorem stripFence_some {s fz r : Str} (h : stripFence s = some (fz, r)) :
    isFence fz ∧ s = fz ++ r := by
  unfold stripFence at h
  split at h
  · simp only [Option.some.injEq, Prod.mk.injEq] at h
    obtain ⟨h1, h2⟩ := h
    subst h1 h2
    exact ⟨Or.inl rfl, rfl⟩
  · simp only [Option.some.injEq, Prod.mk.injEq] at h
    obtain ⟨h1, h2⟩ := h
    subst h1 h2
    exact ⟨Or.inr rfl, rfl⟩
  · cases h

theorem stripFence_append {fz : Str} (h : isFence fz) (r : Str) :
    stripFence (fz ++ r) = some (fz, r) := by
  rcases h with h | h <;> subst h <;> rfl

theorem closeFence_some {s fz r : Str} (h : closeFence s = some (fz, r)) :
    isFence fz ∧ s = '\n' :: fz ++ r := by
  unfold closeFence at h
  split at h
  · obtain ⟨h1, h2⟩ := stripFence_some h
    exact ⟨h1, by rw [h2]; rfl⟩
  · cases h

theorem closeFence_append {fz : Str} (h : isFence fz) (r : Str) :
    closeFence ('\n' :: fz ++ r) = some (fz, r) := by
  show stripFence (fz ++ r) = some (fz, r)
  exact stripFence_append h r

theorem lazyBody_some {t cap cl rest : Str} (h : lazyBody t = some (cap, cl, rest)) :
    cap ≠ [] ∧ isFence cl ∧ t = cap ++ '\n' :: cl ++ rest := by
  induction t generalizing cap with
  | nil => simp [lazyBody] at h
  | cons c t ih =>
    unfold lazyBody at h
    split at h
    · rename_i fence rest1 hc
      simp only [Option.some.injEq, Prod.mk.injEq] at h
      obtain ⟨h1, h2, h3⟩ := h
      subst h1 h2 h3
      obtain ⟨hf, ht⟩ := closeFence_some hc
      exact ⟨by simp, hf, by rw [ht]; rfl⟩
    · split at h
      · rename_i cap1 fence rest1 hl
        simp only [Option.some.injEq, Prod.mk.injEq] at h
        obtain ⟨h1, h2, h3⟩ := h
        subst h1 h2 h3
        obtain ⟨_, hf, ht⟩ := ih hl
        exact ⟨by simp, hf, by rw [ht]; rfl⟩
      · cases h

theorem lazyBody_complete (cap cl rest : Str) (hcap : cap ≠ []) (hcl : isFence cl) :
    lazyBody (cap ++ '\n' :: cl ++ rest) ≠ none := by
  induction cap with
  | nil => exact absurd rfl hcap
  | cons c cap ih =>
    show lazyBody (c :: (cap ++ '\n' :: cl ++ rest)) ≠ none
    unfold lazyBody
    split
    · simp
    · rename_i hclose
      cases cap with
      | nil =>
        have := closeFence_append hcl rest
        simp only [List.nil_append] at hclose
        rw [this] at hclose
        cases hclose
      | cons d cap =>
        have := ih (by simp)
        split
        · simp
        · rename_i hnone
          exact absurd hnone this

/-- The front-matter block the expression finds is a fenced region at the very
start of the document, and the text after it is the rest of the document. -/
theorem reFrontMatterFind_some {content : Str} {m : FrontMatter}
    (h : reFrontMatterFind content = some m) :
    ∃ o c, isFence o ∧ isFence c ∧ m.capture ≠ [] ∧
      m.whole = o ++ '\n' :: m.capture ++ '\n' :: c ∧ content = m.whole ++ m.rest := by
  unfold reFrontMatterFind at h
  split at h
  · rename_i op body hs
    split at h
    · rename_i cap cl rest hl
      simp only [Option.some.injEq] at h
      subst h
      obtain ⟨ho, hc⟩ := stripFence_some hs
      obtain ⟨hcap, hcl, hb⟩ := lazyBody_some hl
      refine ⟨op, cl, ho, hcl, hcap, by simp, ?_⟩
      rw [hc, hb]
      simp
    · cases h
  · cases h

/-- A document without a fenced region at its very start has no front-matter
match. -/
theorem reFrontMatterFind_none {content : Str} (h : reFrontMatterFind content = none) :
    ¬ ∃ o cap c rest, isFence o ∧ isFence c ∧ cap ≠ [] ∧
      content = o ++ '\n' :: cap ++ '\n' :: c ++ rest := by
  rintro ⟨o, cap, c, rest, ho, hc, hcap, hcontent⟩
  have hs : stripFence content = some (o, '\n' :: cap ++ '\n' :: c ++ rest) := by
    rw [hcontent]
    have := stripFence_append ho ('\n' :: cap ++ '\n' :: c ++ rest)
    simpa using this
  have hl := lazyBody_complete cap c rest hcap hc
  unfold reFrontMatterFind at h
  rw [hs] at h
  split at h
  · rename_i op body heq
    have hb : body = cap ++ '\n' :: c ++ rest := by
      simp only [Option.some.injEq, Prod.mk.injEq] at heq
      have h2 := heq.2
      simp only [List.cons_append, List.cons.injEq, true_and] at h2
      exact h2.symm
    subst hb
    split at h
    · cases h
    · rename_i hnone
      exact hl hnone
  · rename_i hno
    exact hno o _ rfl

/-! ## Skipped and empty rule sets -/

theorem blockLoop_unmatched (L : Libs) (l : Linter) (f : File) (block : Str) (exts : List Str)
    (rules : List (Str × List Str))
    (h : ∀ e ∈ rules, ∃ g, L.globCompile e.1 = .ok g ∧ L.matchAny g exts = false) (s : Str) :
    blockLoop L l f block exts rules s = (s, none) := by
  induction rules with
  | nil => rfl
  | cons e rules ih =>
    obtain ⟨syntx, regexes⟩ := e
    obtain ⟨g, hg, hm⟩ := h (syntx, regexes) (List.mem_cons_self _ _)
    simp only at hg
    simp only [blockLoop, hg, hm]
    exact ih fun e he => h e (List.mem_cons_of_mem _ he)

theorem tokenLoop_unmatched (L : Libs) (l : Linter) (inline : Str) (exts : List Str)
    (rules : List (Str × List Str))
    (h : ∀ e ∈ rules, ∃ g, L.globCompile e.1 = .ok g ∧ L.matchAny g exts = false) (s : Str) :
    tokenLoop L l inline exts rules s = (s, none) := by
  induction rules with
  | nil => rfl
  | cons e rules ih =>
    obtain ⟨syntx, regexes⟩ := e
    obtain ⟨g, hg, hm⟩ := h (syntx, regexes) (List.mem_cons_self _ _)
    simp only at hg
    simp only [tokenLoop, hg, hm]
    exact ih fun e he => h e (List.mem_cons_of_mem _ he)

theorem applyPatterns_unmatched (L : Libs) (l : Linter) (f : File) (block inline : Str)
    (hb : ∀ e ∈ l.Manager.Config.BlockIgnores,
      ∃ g, L.globCompile e.1 = .ok g ∧ L.matchAny g [f.NormedExt, f.RealExt] = false)
    (ht : ∀ e ∈ l.Manager.Config.TokenIgnores,
      ∃ g, L.globCompile e.1 = .ok g ∧ L.matchAny g [f.NormedExt, f.RealExt] = false) :
    applyPatterns L l f block inline
      = (reFrontMatterReplaceAllString L f.Content block, none) := by
  simp only [applyPatterns, blockLoop_unmatched L l f block _ _ hb,
    tokenLoop_unmatched L l inline _ _ ht]

theorem applyPatterns_no_rules (L : Libs) (flags : CLIFlags) (f : File) (block inline : Str) :
    applyPatterns L ⟨⟨⟨[], [], flags⟩⟩⟩ f block inline
      = (reFrontMatterReplaceAllString L f.Content block, none) :=
  applyPatterns_unmatched L _ f block inline (by simp) (by simp)

/-! ## C2: front-matter stripping -/

/-- C2. With empty rule sets and any block template, the document
`---\nkey: val\n---\nBody text` is masked to the expansion of the block
template for the front matter (group 1 is `key: val`) followed by the rest of
the document, `\nBody text`.  More generally, for every document: either it
begins with a fenced region (a fence line, a non-empty body, a newline and a
fence) and the output is the expansion of the template for that region
followed by everything after the closing fence, or it has no such region at
its start and is returned unchanged. -/
theorem front_matter_stripping (L : Libs) (flags : CLIFlags)
    (path normed real block inline : Str) :
    applyPatterns L ⟨⟨⟨[], [], flags⟩⟩⟩
        ⟨path, "---\nkey: val\n---\nBody text".toList, normed, real⟩ block inline
      = (L.expandStd block "---\nkey: val\n---".toList "key: val".toList
          ++ "\nBody text".toList, none)
    ∧ ∀ content : Str,
      (∃ o cap c rest, isFence o ∧ isFence c ∧ cap ≠ [] ∧
          content = o ++ '\n' :: cap ++ '\n' :: c ++ rest ∧
          applyPatterns L ⟨⟨⟨[], [], flags⟩⟩⟩ ⟨path, content, normed, real⟩ block inline
            = (L.expandStd block (o ++ '\n' :: cap ++ '\n' :: c) cap ++ rest, none))
      ∨ ((¬ ∃ o cap c rest, isFence o ∧ isFence c ∧ cap ≠ [] ∧
            content = o ++ '\n' :: cap ++ '\n' :: c ++ rest) ∧
          applyPatterns L ⟨⟨⟨[], [], flags⟩⟩⟩ ⟨path, content, normed, real⟩ block inline
            = (content, none)) := by
  refine ⟨?_, fun content => ?_⟩
  · rw [applyPatterns_no_rules]
    have hfind : reFrontMatterFind "---\nkey: val\n---\nBody text".toList
        = some ⟨"---\nkey: val\n---".toList, "key: val".toList, "\nBody text".toList⟩ := by
      decide
    simp only [reFrontMatterReplaceAllString, hfind]
  · rw [applyPatterns_no_rules]
    cases hfind : reFrontMatterFind content with
    | none =>
      right
      exact ⟨reFrontMatterFind_none hfind, by simp [reFrontMatterReplaceAllString, hfind]⟩
    | some m =>
      left
      obtain ⟨o, c, ho, hc, hcap, hwhole, hcontent⟩ := reFrontMatterFind_some hfind
      refine ⟨o, m.capture, c, m.rest, ho, hc, hcap, ?_, ?_⟩
      · rw [hcontent, hwhole]
      · simp only [reFrontMatterReplaceAllString, hfind, hwhole]

/-! ## C1: rules that match no extension -/

/-- C1, as stated, fails: the rules of the configuration apply to
reStructuredText only and match neither extension of the Markdown document,
yet the document, which begins with front matter, is not returned unchanged:
its front matter is replaced by the block template. -/
theorem unmatched_rules_identity_fails :
    (∀ e ∈ rstOnlyRules ++ rstOnlyRules, ∃ g, demoLibs.globCompile e.1 = .ok g ∧
        demoLibs.matchAny g [frontMatterDoc.NormedExt, frontMatterDoc.RealExt] = false)
    ∧ applyPatterns demoLibs (linterWith rstOnlyRules rstOnlyRules) frontMatterDoc
        mdBlock mdInline = ("\n```\nkey: val\n```\n\nBody text".toList, none)
    ∧ applyPatterns demoLibs (linterWith rstOnlyRules rstOnlyRules) frontMatterDoc
        mdBlock mdInline ≠ (frontMatterDoc.Content, none) := by
  refine ⟨?_, by decide, by decide⟩
  intro e he
  have he1 : e = ("*.rst".toList, ["code".toList]) := by
    simpa [rstOnlyRules] using he
  subst he1
  exact ⟨"*.rst".toList, rfl, by decide⟩

/-- C1, amended.  If every syntax glob of the Block and Token rule sets
compiles and none matches the normalized or the real extension of the
document, `applyPatterns` returns no error and the content in which only a
leading front-matter block is replaced by the block template; a document
without a fenced region at its very start is returned unchanged. -/
theorem unmatched_rules_front_matter_only (L : Libs) (l : Linter) (f : File)
    (block inline : Str)
    (hb : ∀ e ∈ l.Manager.Config.BlockIgnores,
      ∃ g, L.globCompile e.1 = .ok g ∧ L.matchAny g [f.NormedExt, f.RealExt] = false)
    (ht : ∀ e ∈ l.Manager.Config.TokenIgnores,
      ∃ g, L.globCompile e.1 = .ok g ∧ L.matchAny g [f.NormedExt, f.RealExt] = false) :
    applyPatterns L l f block inline
      = (reFrontMatterReplaceAllString L f.Content block, none)
    ∧ ((¬ ∃ o cap c rest, isFence o ∧ isFence c ∧ cap ≠ [] ∧
          f.Content = o ++ '\n' :: cap ++ '\n' :: c ++ rest) →
        applyPatterns L l f block inline = (f.Content, none)) := by
  have hmain := applyPatterns_unmatched L l f block inline hb ht
  refine ⟨hmain, fun hno => ?_⟩
  rw [hmain]
  cases hfind : reFrontMatterFind f.Content with
  | none => simp [reFrontMatterReplaceAllString, hfind]
  | some m =>
    exfalso
    obtain ⟨o, c, ho, hc, hcap, hwhole, hcontent⟩ := reFrontMatterFind_some hfind
    exact hno ⟨o, m.capture, c, m.rest, ho, hc, hcap, by rw [hcontent, hwhole]⟩

theorem unmatched_rules_front_matter_only_witness :
    applyPatterns demoLibs (linterWith rstOnlyRules rstOnlyRules) plainDoc mdBlock mdInline
      = (plainDoc.Content, none) := by
  have hrules : ∀ e ∈ rstOnlyRules, ∃ g, demoLibs.globCompile e.1 = .ok g ∧
      demoLibs.matchAny g [plainDoc.NormedExt, plainDoc.RealExt] = false := by
    intro e he
    have he1 : e = ("*.rst".toList, ["code".toList]) := by
      simpa [rstOnlyRules] using he
    subst he1
    exact ⟨"*.rst".toList, rfl, by decide⟩
  exact (unmatched_rules_front_matter_only demoLibs (linterWith rstOnlyRules rstOnlyRules)
    plainDoc mdBlock mdInline hrules hrules).1.trans (by decide)

/-! ## C6: the status mapping of `post` -/

/-- C6. When the request is built and the client returns a response without a
transport error, `post` returns the response body and no error exactly when
the status code is 200; for every other status code it returns the empty
string and the error `core.NewE100` builds from the path of the document and
the error `bad status`; and whenever `post` returns an error, the string it
returns is empty. -/
theorem post_status_mapping (L : Libs)
    (newRequest : Str → Str → Str → Except L.Err Request)
    (client : Request → Except L.Err Response) (f : File) (text url : Str)
    (req : Request) (resp : Response)
    (hreq : newRequest "POST".toList url text = .ok req)
    (hdo : client ((req.setHeader "Content-Type".toList "text/plain".toList).setHeader
      "Accept".toList "text/plain".toList) = .ok resp) :
    (post L newRequest client f text url = (resp.Body, none) ↔ resp.StatusCode = 200)
    ∧ (resp.StatusCode ≠ 200 →
        post L newRequest client f text url
          = ([], some (L.newE100 f.Path (L.errorsNew "bad status".toList))))
    ∧ ((post L newRequest client f text url).2 ≠ none →
        (post L newRequest client f text url).1 = []) := by
  have hpost : post L newRequest client f text url
      = if resp.StatusCode = 200 then (resp.Body, none)
        else ([], some (L.newE100 f.Path (L.errorsNew "bad status".toList))) := by
    simp only [post, hreq, hdo]
  rw [hpost]
  by_cases hs : resp.StatusCode = 200
  · simp [hs]
  · simp [hs]

theorem post_status_mapping_witness :
    post demoLibs plainRequest (rejectingClient 500) plainDoc "Body text".toList
        "http://127.0.0.1:7069".toList
      = ([], some (DemoErr.e100 "README.md".toList (DemoErr.text "bad status".toList))) :=
  (post_status_mapping demoLibs plainRequest (rejectingClient 500) plainDoc
    "Body text".toList "http://127.0.0.1:7069".toList _ _ rfl rfl).2.1 (by decide)

/-! ## C7: the queries of the Python profile -/

theorem take_one_drop {α : Type} (l : List α) (i : Nat) :
    (l.drop i).take 1 = match l[i]? with
      | some x => [x]
      | none => [] := by
  induction l generalizing i with
  | nil => simp
  | cons a l ih =>
    cases i with
    | zero => simp
    | succ i => simpa using ih i

/-- The text of a span that lies in one row. -/
theorem spanText_row (source : Bytes) (i a b : Nat) :
    spanText source ⟨i, a, i, b⟩ = match (byteRows source)[i]? with
      | some row => (row.take b).drop a
      | none => [] := by
  have h1 : i + 1 - i = 1 := by omega
  simp only [spanText, h1, take_one_drop]
  cases (byteRows source)[i]? <;> rfl

/-- Dropping three items at each end of the part of a row that is a text
between two delimiters of three items leaves the text. -/
theorem strip_delimiters {α : Type} (row d1 body d2 : List α) (s : Nat)
    (h : (row.take (s + (3 + body.length + 3))).drop s = d1 ++ body ++ d2)
    (h1 : d1.length = 3) : (row.take (s + 3 + body.length)).drop (s + 3) = body := by
  have e1 : row.take (s + 3 + body.length)
      = (row.take (s + (3 + body.length + 3))).take (s + 3 + body.length) := by
    rw [List.take_take]
    congr 1
    omega
  have e2 : s + 3 + body.length - s = 3 + body.length := by omega
  have e3 : List.take (3 + body.length) (d1 ++ body ++ d2) = d1 ++ body :=
    List.take_left' (by simp; omega)
  rw [e1, ← List.drop_drop, List.drop_take, h, e2, e3, List.drop_left' h1]

/-- Each docstring query of the profile yields the text of the span of the
captured node adjusted by `0 3 0 -3`. -/
theorem docstring_query_adjusts (q : Str) (hq : q ∈ Python.Queries.tail) (source : Bytes)
    (node : Span) :
    adjustedCapture q source node
      = some (spanText source ((⟨0, 3, 0, -3⟩ : Offset).apply node)) := by
  have hcases : q = Python.Queries.getD 1 [] ∨ q = Python.Queries.getD 2 []
      ∨ q = Python.Queries.getD 3 [] := by
    simpa [Python] using hq
  rcases hcases with h | h | h
  · have hb : captureBinding (tokens q) = some ("string".toList, "@docstring".toList) := by
      rw [h]; decide
    have ho : queryOffset q = some ("@docstring".toList, ⟨0, 3, 0, -3⟩) := by
      rw [h]; decide
    simp only [adjustedCapture, hb, ho, if_true]
  · have hb : captureBinding (tokens q) = some ("string".toList, "@rst".toList) := by
      rw [h]; decide
    have ho : queryOffset q = some ("@rst".toList, ⟨0, 3, 0, -3⟩) := by
      rw [h]; decide
    simp only [adjustedCapture, hb, ho, if_true]
  · have hb : captureBinding (tokens q) = some ("string".toList, "@rst".toList) := by
      rw [h]; decide
    have ho : queryOffset q = some ("@rst".toList, ⟨0, 3, 0, -3⟩) := by
      rw [h]; decide
    simp only [adjustedCapture, hb, ho, if_true]

/-- C7. The Python profile is the Python grammar with the delimiter expression
of py.go and exactly four queries, in this order: the merged consecutive
comments (`(comment)+`), the string that is the first statement of the body of
a function definition, of the body of a class definition, and of the module.
The comment query captures the comment node and carries no offset adjustment;
each docstring query captures the string node and carries the adjustment
`0 3 0 -3` for that very capture.  In the source of a function whose first
statement is `"""Hello."""` the string node spans row 1, bytes 4 to 16, and
the function-docstring query yields for it exactly `Hello.`.  The comment
query yields the text of the node as it is, and every docstring query yields,
for every node in one row whose text is a text between two delimiters of
three bytes, exactly the text between them; columns are counted in bytes. -/
theorem python_docstring_offsets :
    Python.Parser = Grammar.python
    ∧ Python.Delims = "#\\s?|\\s*\"\"\"\\s*|\\s*'''\\s*".toList
    ∧ Python.Queries.map tokens
        = [["(", "comment", ")", "+", "@comment"],
            ["(", "(", "function_definition", "body:", "(", "block", ".", "(",
              "expression_statement", "(", "string", ")", "@docstring", ")", ")", ")",
              "(", "#offset!", "@docstring", "0", "3", "0", "-3", ")", ")"],
            ["(", "(", "class_definition", "body:", "(", "block", ".", "(",
              "expression_statement", "(", "string", ")", "@rst", ")", ")", ")",
              "(", "#offset!", "@rst", "0", "3", "0", "-3", ")", ")"],
            ["(", "(", "module", ".", "(", "expression_statement", "(", "string", ")",
              "@rst", ")", ")", "(", "#offset!", "@rst", "0", "3", "0", "-3", ")",
              ")"]].map (fun ts => ts.map String.toList)
    ∧ (Python.Queries.map fun q => captureBinding (tokens q))
        = [some ("comment".toList, "@comment".toList),
            some ("string".toList, "@docstring".toList),
            some ("string".toList, "@rst".toList), some ("string".toList, "@rst".toList)]
    ∧ Python.Queries.map queryOffset
        = [none, some ("@docstring".toList, ⟨0, 3, 0, -3⟩),
            some ("@rst".toList, ⟨0, 3, 0, -3⟩), some ("@rst".toList, ⟨0, 3, 0, -3⟩)]
    ∧ spanOfFirst (bytesOf "\"\"\"Hello.\"\"\"".toList) helloSource = some helloSpan
    ∧ (Python.Queries.map fun q => adjustedCapture q helloSource helloSpan)
        = [some (bytesOf "\"\"\"Hello.\"\"\"".toList), some (bytesOf "Hello.".toList),
            some (bytesOf "Hello.".toList), some (bytesOf "Hello.".toList)]
    ∧ (∀ (source : Bytes) (node : Span),
        adjustedCapture (Python.Queries.getD 0 []) source node = some (spanText source node))
    ∧ ∀ q ∈ Python.Queries.tail, ∀ (source d1 body d2 : Bytes) (i s : Nat),
        spanText source ⟨i, s, i, s + (3 + body.length + 3)⟩ = d1 ++ body ++ d2 →
        d1.length = 3 → d2.length = 3 →
        adjustedCapture q source ⟨i, s, i, s + (3 + body.length + 3)⟩ = some body := by
  refine ⟨rfl, by decide, by decide, by decide, by decide, by decide, by decide, ?_, ?_⟩
  · intro source node
    have hb : captureBinding (tokens (Python.Queries.getD 0 []))
        = some ("comment".toList, "@comment".toList) := by decide
    have ho : queryOffset (Python.Queries.getD 0 []) = none := by decide
    simp only [adjustedCapture, hb, ho]
  · intro q hq source d1 body d2 i s htext h1 _
    rw [docstring_query_adjusts q hq]
    have hs : (⟨0, 3, 0, -3⟩ : Offset).apply ⟨i, s, i, s + (3 + body.length + 3)⟩
        = ⟨i, s + 3, i, s + 3 + body.length⟩ := by
      simp only [Offset.apply, Span.mk.injEq]
      refine ⟨by omega, by omega, by omega, by omega⟩
    rw [hs, spanText_row]
    rw [spanText_row] at htext
    cases hrow : (byteRows source)[i]? with
    | none =>
      rw [hrow] at htext
      have hlen := congrArg List.length htext
      simp at hlen
      omega
    | some row =>
      rw [hrow] at htext
      simp only at htext ⊢
      rw [strip_delimiters row d1 body d2 s htext h1]

theorem python_docstring_offsets_witness :
    adjustedCapture (Python.Queries.getD 2 []) classSource ⟨1, 2, 1, 2 + (3 + 11 + 3)⟩
      = some (bytesOf "Caf\u00e9 of A.".toList) :=
  python_docstring_offsets.2.2.2.2.2.2.2.2 (Python.Queries.getD 2 []) (by decide) classSource
    (bytesOf "'''".toList) (bytesOf "Caf\u00e9 of A.".toList) (bytesOf "'''".toList) 1 2
    (by decide) (by decide) (by decide)

/-! ## Facts about `cutFirst`, `lines` and `Indent` -/

theorem cutFirst_spec {old s a b : Str} (h : cutFirst old s = some (a, b)) :
    s = a ++ old ++ b := by
  induction s generalizing a with
  | nil => simp [cutFirst] at h
  | cons c s ih =>
    unfold cutFirst at h
    split at h
    · rename_i hp
      simp only [Option.some.injEq, Prod.mk.injEq] at h
      obtain ⟨h1, h2⟩ := h
      subst h1 h2
      have hpre : old <+: c :: s := List.isPrefixOf_iff_prefix.mp hp
      have := List.prefix_iff_eq_append.mp hpre
      simpa using this.symm
    · split at h
      · rename_i a1 b1 hrec
        simp only [Option.some.injEq, Prod.mk.injEq] at h
        obtain ⟨h1, h2⟩ := h
        subst h1 h2
        rw [ih hrec]
        simp
      · cases h

theorem cutFirst_of_occurrence {old : Str} (hold : old ≠ []) (x y : Str) :
    ∃ a b, cutFirst old (x ++ old ++ y) = some (a, b) ∧ a.length ≤ x.length := by
  induction x with
  | nil =>
    obtain ⟨c, t, rfl⟩ := List.exists_cons_of_ne_nil hold
    refine ⟨[], ((c :: t) ++ y).drop (c :: t).length, ?_, by simp⟩
    have hp : (c :: t).isPrefixOf (c :: (t ++ y)) = true :=
      List.isPrefixOf_iff_prefix.mpr ⟨y, rfl⟩
    show cutFirst (c :: t) (c :: (t ++ y)) = _
    unfold cutFirst
    rw [if_pos hp]
    rfl
  | cons d x ih =>
    obtain ⟨a, b, hab, hlen⟩ := ih
    show ∃ a b, cutFirst old (d :: (x ++ old ++ y)) = some (a, b) ∧ _
    unfold cutFirst
    by_cases hp : old.isPrefixOf (d :: (x ++ old ++ y)) = true
    · rw [if_pos hp]
      exact ⟨[], _, rfl, by simp⟩
    · rw [if_neg hp, hab]
      exact ⟨d :: a, b, rfl, by simpa using hlen⟩

theorem lines_ne_nil (s : Str) : lines s ≠ [] := by
  cases s with
  | nil => simp [lines]
  | cons c s =>
    unfold lines
    split
    · simp
    · split <;> simp

theorem lines_nl_cons (s : Str) : lines ('\n' :: s) = [] :: lines s := by
  rw [lines]
  simp

theorem lines_cons_of_ne {c : Char} (hc : c ≠ '\n') (s : Str) :
    lines (c :: s) = (c :: (lines s).headD []) :: (lines s).tail := by
  rw [lines, if_neg hc]
  cases h : lines s with
  | nil => exact absurd h (lines_ne_nil s)
  | cons l ls => rfl

theorem lines_append_nl {l : Str} (hl : '\n' ∉ l) (s : Str) :
    lines (l ++ '\n' :: s) = l :: lines s := by
  induction l with
  | nil => exact lines_nl_cons s
  | cons c l ih =>
    have hc : c ≠ '\n' := fun h => hl (by simp [h])
    have hl1 : '\n' ∉ l := fun h => hl (List.mem_cons_of_mem _ h)
    show lines (c :: (l ++ '\n' :: s)) = _
    rw [lines_cons_of_ne hc, ih hl1]
    rfl

theorem lines_of_no_nl {l : Str} (hl : '\n' ∉ l) : lines l = [l] := by
  induction l with
  | nil => rfl
  | cons c l ih =>
    have hc : c ≠ '\n' := fun h => hl (by simp [h])
    have hl1 : '\n' ∉ l := fun h => hl (List.mem_cons_of_mem _ h)
    rw [lines_cons_of_ne hc, ih hl1]
    rfl

theorem lines_no_nl (s : Str) : ∀ l ∈ lines s, '\n' ∉ l := by
  induction s with
  | nil => simp [lines]
  | cons c s ih =>
    by_cases hc : c = '\n'
    · subst hc
      rw [lines_nl_cons]
      intro l hl
      rcases List.mem_cons.mp hl with h | h
      · subst h; simp
      · exact ih l h
    · rw [lines_cons_of_ne hc]
      cases h : lines s with
      | nil => exact absurd h (lines_ne_nil s)
      | cons l0 ls =>
        rw [h] at ih
        intro l hl
        rcases List.mem_cons.mp hl with h1 | h1
        · subst h1
          simp only [List.headD_cons, List.mem_cons, not_or]
          exact ⟨fun e => hc e.symm, ih l0 (List.mem_cons_self _ _)⟩
        · exact ih l (List.mem_cons_of_mem _ h1)

theorem lines_joinLines (ls : List Str) (hne : ls ≠ []) (h : ∀ l ∈ ls, '\n' ∉ l) :
    lines (joinLines ls) = ls := by
  induction ls with
  | nil => exact absurd rfl hne
  | cons l ls ih =>
    cases ls with
    | nil => exact lines_of_no_nl (h l (List.mem_cons_self _ _))
    | cons l1 ls =>
      show lines (l ++ '\n' :: joinLines (l1 :: ls)) = _
      rw [lines_append_nl (h l (List.mem_cons_self _ _)),
        ih (by simp) fun x hx => h x (List.mem_cons_of_mem _ hx)]

/-- Every line of the indented text is the line of the text prefixed by the
margin. -/
theorem lines_Indent (text indent : Str) (hind : '\n' ∉ indent) :
    lines (Indent text indent) = (lines text).map fun l => indent ++ l := by
  unfold Indent
  apply lines_joinLines
  · simpa using lines_ne_nil text
  · intro l hl
    obtain ⟨l0, hl0, rfl⟩ := List.mem_map.mp hl
    simp only [List.mem_append, not_or]
    exact ⟨hind, lines_no_nl text l0 hl0⟩

/-! ## One matching block rule -/

theorem applyPatterns_one_block_rule (L : Libs) (l : Linter) (f : File)
    (block inline syntx r : Str) (sec : L.Glob) (pat : L.Pat)
    (hblock : l.Manager.Config.BlockIgnores = [(syntx, [r])])
    (htoken : l.Manager.Config.TokenIgnores = [])
    (hglob : L.globCompile syntx = .ok sec)
    (hmatch : L.matchAny sec [f.NormedExt, f.RealExt] = true)
    (hpat : L.compileStd r = .ok pat) :
    applyPatterns L l f block inline
      = if hasSuffix f.NormedExt rstExt then
          (rstLoop L block
            (FindAllStringSubmatch L pat (reFrontMatterReplaceAllString L f.Content block))
            (reFrontMatterReplaceAllString L f.Content block), none)
        else
          match Replace L pat (reFrontMatterReplaceAllString L f.Content block) block with
          | (s1, some err) =>
            (s1, some (L.newE201FromTarget err r l.Manager.Config.Flags.Path))
          | (s1, none) => (s1, none) := by
  simp only [applyPatterns, hblock, htoken, blockLoop, hglob, hmatch, blockRegexes, hpat,
    tokenLoop, if_true]
  by_cases hrst : hasSuffix f.NormedExt rstExt = true
  · simp only [hrst, if_true]
  · simp only [hrst]
    rcases hrep : Replace L pat (reFrontMatterReplaceAllString L f.Content block) block
      with ⟨s1, _ | err⟩ <;> simp

theorem blockRegexes_congr (L : Libs) (l : Linter) (f g : File) (block : Str)
    (h : g.NormedExt = f.NormedExt) (rs : List Str) (s : Str) :
    blockRegexes L l g block rs s = blockRegexes L l f block rs s := by
  induction rs generalizing s with
  | nil => rfl
  | cons r rs ih =>
    simp only [blockRegexes, h]
    cases L.compileStd r with
    | error e => rfl
    | ok pat =>
      simp only
      split
      · exact ih _
      · rcases Replace L pat s block with ⟨s1, _ | err⟩
        · exact ih _
        · rfl

theorem blockLoop_congr (L : Libs) (l : Linter) (f g : File) (block : Str)
    (extsF extsG : List Str) (h : g.NormedExt = f.NormedExt)
    (hm : ∀ sec, L.matchAny sec extsG = L.matchAny sec extsF)
    (rules : List (Str × List Str)) (s : Str) :
    blockLoop L l g block extsG rules s = blockLoop L l f block extsF rules s := by
  induction rules generalizing s with
  | nil => rfl
  | cons e rules ih =>
    obtain ⟨syntx, regexes⟩ := e
    simp only [blockLoop]
    cases L.globCompile syntx with
    | error e => rfl
    | ok sec =>
      simp only [hm sec, blockRegexes_congr L l f g block h]
      split
      · rcases blockRegexes L l f block regexes s with ⟨s1, _ | err⟩
        · exact ih _
        · rfl
      · exact ih _

theorem tokenLoop_congr (L : Libs) (l : Linter) (inline : Str)
    (extsF extsG : List Str) (hm : ∀ sec, L.matchAny sec extsG = L.matchAny sec extsF)
    (rules : List (Str × List Str)) (s : Str) :
    tokenLoop L l inline extsG rules s = tokenLoop L l inline extsF rules s := by
  induction rules generalizing s with
  | nil => rfl
  | cons e rules ih =>
    obtain ⟨syntx, regexes⟩ := e
    simp only [tokenLoop]
    cases L.globCompile syntx with
    | error e => rfl
    | ok sec =>
      simp only [hm sec]
      split
      · rcases tokenRegexes L l inline regexes s with ⟨s1, _ | err⟩
        · exact ih _
        · rfl
      · exact ih _

/-! ## C3: the indentation of literal blocks -/

/-- C3. Take a configuration with one block rule whose glob matches both
documents and whose pattern has exactly one match, a non-empty span, in the
document text.  For the document whose normalized extension ends in `.rst`
the output is the text with an occurrence of the span (at or before the
match) replaced by the block template filled by `fmt.Sprintf` with the
indented span, and the lines of the indented span are the lines of the span
prefixed by exactly four spaces each.  For the document with the same content
whose normalized extension does not end in `.rst`, the match is replaced by
the expansion of the block template for the match itself, with no
indentation. -/
theorem rst_indentation_exception (L : Libs) (l : Linter) (f g : File)
    (block inline syntx r : Str) (sec : L.Glob) (pat : L.Pat) (m : Match) (post : Str)
    (hblock : l.Manager.Config.BlockIgnores = [(syntx, [r])])
    (htoken : l.Manager.Config.TokenIgnores = [])
    (hglob : L.globCompile syntx = .ok sec)
    (hmf : L.matchAny sec [f.NormedExt, f.RealExt] = true)
    (hmg : L.matchAny sec [g.NormedExt, g.RealExt] = true)
    (hpat : L.compileStd r = .ok pat)
    (hrst : hasSuffix f.NormedExt rstExt = true)
    (hplain : hasSuffix g.NormedExt rstExt = false)
    (hcontent : g.Content = f.Content)
    (hfind : L.findAll pat (reFrontMatterReplaceAllString L f.Content block) = ([m], post))
    (hcover : reFrontMatterReplaceAllString L f.Content block = m.gap ++ m.whole ++ post)
    (hne : m.whole ≠ [])
    (hfault : L.replaceFault pat (reFrontMatterReplaceAllString L f.Content block) block
      = none) :
    (∃ a b, reFrontMatterReplaceAllString L f.Content block = a ++ m.whole ++ b
        ∧ a.length ≤ m.gap.length
        ∧ applyPatterns L l f block inline
          = (a ++ L.sprintf block (Indent m.whole [' ', ' ', ' ', ' ']) ++ b, none))
    ∧ lines (Indent m.whole [' ', ' ', ' ', ' '])
        = (lines m.whole).map (fun ln => [' ', ' ', ' ', ' '] ++ ln)
    ∧ applyPatterns L l g block inline = (m.gap ++ L.expand pat block m ++ post, none) := by
  refine ⟨?_, lines_Indent _ _ (by decide), ?_⟩
  · rw [applyPatterns_one_block_rule L l f block inline syntx r sec pat hblock htoken hglob
      hmf hpat, if_pos hrst]
    obtain ⟨a, b, hcut, hlen⟩ := cutFirst_of_occurrence hne m.gap post
    rw [← hcover] at hcut
    refine ⟨a, b, cutFirst_spec hcut, hlen, ?_⟩
    obtain ⟨c, t, hw⟩ := List.exists_cons_of_ne_nil hne
    simp only [FindAllStringSubmatch, hfind, List.map_cons, List.map_nil, rstLoop,
      replaceFirst, padding]
    rw [hw] at hcut ⊢
    simp only [hcut]
  · rw [applyPatterns_one_block_rule L l g block inline syntx r sec pat hblock htoken hglob
      hmg hpat, hcontent]
    simp [hplain, Replace, hfault, hfind]

theorem rst_indentation_exception_witness :
    (∃ a b, "some code here".toList = a ++ "code".toList ++ b
        ∧ a.length ≤ 5
        ∧ applyPatterns demoLibs (linterWith codeRule []) rstDoc rstBlock rstInline
          = (a ++ "\n::\n\n    code\n".toList ++ b, none))
    ∧ lines (Indent "code".toList [' ', ' ', ' ', ' '])
        = (lines "code".toList).map (fun ln => [' ', ' ', ' ', ' '] ++ ln)
    ∧ applyPatterns demoLibs (linterWith codeRule []) mdDoc rstBlock rstInline
        = ("some \n::\n\n%s\n here".toList, none) :=
  rst_indentation_exception demoLibs (linterWith codeRule []) rstDoc mdDoc rstBlock rstInline
    "*".toList "code".toList "*".toList "code".toList ⟨"some ".toList, "code".toList, []⟩
    " here".toList rfl rfl rfl (by decide) (by decide) rfl (by decide) (by decide) rfl
    (by decide) (by decide) (by decide) rfl

/-! ## C9: the gate of the padded path -/

/-- C9, as stated, fails.  A document with the real extension `.rst` and the
normalized extension `.md` does not take the padded path: its match is
replaced by `pat.Replace` and no indentation is added.  A document with the
real extension `.md` and the normalized extension `.rst` does take it. -/
theorem rst_gate_real_ext_fails :
    hasSuffix realRstDoc.RealExt rstExt = true
    ∧ applyPatterns demoLibs (linterWith codeRule []) realRstDoc rstBlock rstInline
        = ("some \n::\n\n%s\n here".toList, none)
    ∧ applyPatterns demoLibs (linterWith codeRule []) realRstDoc rstBlock rstInline
        ≠ (rstLoop demoLibs rstBlock
            (FindAllStringSubmatch demoLibs "code".toList "some code here".toList)
            "some code here".toList, none)
    ∧ hasSuffix normedRstDoc.RealExt rstExt = false
    ∧ applyPatterns demoLibs (linterWith codeRule []) normedRstDoc rstBlock rstInline
        = ("some \n::\n\n    code\n here".toList, none)
    ∧ applyPatterns demoLibs (linterWith codeRule []) normedRstDoc rstBlock rstInline
        = (rstLoop demoLibs rstBlock
            (FindAllStringSubmatch demoLibs "code".toList "some code here".toList)
            "some code here".toList, none) := by
  refine ⟨by decide, by decide, by decide, by decide, by decide, by decide⟩

/-- C9, amended.  The padded path is gated on the normalized extension.  For
every document and every block pattern that compiles, the loop over the
patterns takes the indent-and-replace-once path when the normalized extension
ends in `.rst` and calls `pat.Replace` otherwise; with one matching block rule
the output of `applyPatterns` is the output of the path so chosen; and the
real extension plays no part beyond the matching of the globs: two documents
with the same content and normalized extension that the globs match alike are
masked alike. -/
theorem rst_gate_on_normed_ext (L : Libs) (l : Linter) (f : File) (block inline : Str) :
    (∀ (r : Str) (rs : List Str) (s : Str) (pat : L.Pat), L.compileStd r = .ok pat →
      blockRegexes L l f block (r :: rs) s
        = if hasSuffix f.NormedExt rstExt then
            blockRegexes L l f block rs (rstLoop L block (FindAllStringSubmatch L pat s) s)
          else
            match Replace L pat s block with
            | (s1, some err) =>
              (s1, some (L.newE201FromTarget err r l.Manager.Config.Flags.Path))
            | (s1, none) => blockRegexes L l f block rs s1)
    ∧ (∀ (syntx r : Str) (sec : L.Glob) (pat : L.Pat),
        l.Manager.Config.BlockIgnores = [(syntx, [r])] →
        l.Manager.Config.TokenIgnores = [] →
        L.globCompile syntx = .ok sec →
        L.matchAny sec [f.NormedExt, f.RealExt] = true →
        L.compileStd r = .ok pat →
        applyPatterns L l f block inline
          = if hasSuffix f.NormedExt rstExt then
              (rstLoop L block
                (FindAllStringSubmatch L pat (reFrontMatterReplaceAllString L f.Content block))
                (reFrontMatterReplaceAllString L f.Content block), none)
            else
              match Replace L pat (reFrontMatterReplaceAllString L f.Content block) block with
              | (s1, some err) =>
                (s1, some (L.newE201FromTarget err r l.Manager.Config.Flags.Path))
              | (s1, none) => (s1, none))
    ∧ (∀ g : File, g.Content = f.Content → g.NormedExt = f.NormedExt →
        (∀ sec, L.matchAny sec [g.NormedExt, g.RealExt]
          = L.matchAny sec [f.NormedExt, f.RealExt]) →
        applyPatterns L l g block inline = applyPatterns L l f block inline) := by
  refine ⟨?_, ?_, ?_⟩
  · intro r rs s pat hpat
    simp only [blockRegexes, hpat]
  · intro syntx r sec pat hblock htoken hglob hmatch hpat
    exact applyPatterns_one_block_rule L l f block inline syntx r sec pat hblock htoken hglob
      hmatch hpat
  · intro g hcontent hnormed hm
    simp only [applyPatterns, hcontent]
    rw [blockLoop_congr L l f g block _ _ hnormed hm]
    rcases blockLoop L l f block [f.NormedExt, f.RealExt] l.Manager.Config.BlockIgnores
      (reFrontMatterReplaceAllString L f.Content block) with ⟨s1, _ | err⟩
    · exact tokenLoop_congr L l inline _ _ hm _ _
    · rfl

theorem rst_gate_on_normed_ext_witness :
    applyPatterns demoLibs (linterWith codeRule []) normedRstDoc rstBlock rstInline
        = ("some \n::\n\n    code\n here".toList, none) :=
  ((rst_gate_on_normed_ext demoLibs (linterWith codeRule []) normedRstDoc rstBlock
    rstInline).2.1 "*".toList "code".toList "*".toList "code".toList rfl rfl rfl
    (by decide) rfl).trans (by decide)

/-! ## C10: matches with the same text on the padded path -/

/-- C10, the code at the failing input.  The pattern `code` has two matches in
`code code`.  The first iteration replaces the first occurrence by the
placeholder; the second iteration replaces the first occurrence of `code` in
the new text, which lies inside that placeholder.  The second match stays in
the text as it was and the placeholder is nested, so the output is not the
text in which each match is replaced at its own position. -/
theorem rst_duplicate_match_lands_in_placeholder :
    FindAllStringSubmatch demoLibs "code".toList "code code".toList
        = [("code".toList, []), ("code".toList, [])]
    ∧ applyPatterns demoLibs (linterWith rstOnlyRules []) twiceDoc rstBlock rstInline
        = ("\n::\n\n    \n::\n\n    code\n\n code".toList, none)
    ∧ applyPatterns demoLibs (linterWith rstOnlyRules []) twiceDoc rstBlock rstInline
        ≠ ("\n::\n\n    code\n \n::\n\n    code\n".toList, none) := by
  refine ⟨by decide, by decide, by decide⟩

/-! ## The loops on concatenated lists -/

theorem blockRegexes_append (L : Libs) (l : Linter) (f : File) (block : Str)
    (rs1 rs2 : List Str) (s : Str) :
    blockRegexes L l f block (rs1 ++ rs2) s
      = match blockRegexes L l f block rs1 s with
        | (s1, some err) => (s1, some err)
        | (s1, none) => blockRegexes L l f block rs2 s1 := by
  induction rs1 generalizing s with
  | nil => rfl
  | cons r rs1 ih =>
    simp only [List.cons_append, blockRegexes]
    cases L.compileStd r with
    | error e => rfl
    | ok pat =>
      simp only
      split
      · exact ih _
      · rcases Replace L pat s block with ⟨s1, _ | err⟩
        · exact ih _
        · rfl

theorem tokenRegexes_append (L : Libs) (l : Linter) (inline : Str)
    (rs1 rs2 : List Str) (s : Str) :
    tokenRegexes L l inline (rs1 ++ rs2) s
      = match tokenRegexes L l inline rs1 s with
        | (s1, some err) => (s1, some err)
        | (s1, none) => tokenRegexes L l inline rs2 s1 := by
  induction rs1 generalizing s with
  | nil => rfl
  | cons r rs1 ih =>
    simp only [List.cons_append, tokenRegexes]
    cases L.compileStd r with
    | error e => rfl
    | ok pat =>
      simp only
      rcases Replace L pat s inline with ⟨s1, _ | err⟩
      · exact ih _
      · rfl

theorem blockLoop_append (L : Libs) (l : Linter) (f : File) (block : Str) (exts : List Str)
    (pre post : List (Str × List Str)) (s : Str) :
    blockLoop L l f block exts (pre ++ post) s
      = match blockLoop L l f block exts pre s with
        | (s1, some err) => (s1, some err)
        | (s1, none) => blockLoop L l f block exts post s1 := by
  induction pre generalizing s with
  | nil => rfl
  | cons e pre ih =>
    obtain ⟨syntx, regexes⟩ := e
    simp only [List.cons_append, blockLoop]
    cases L.globCompile syntx with
    | error e => rfl
    | ok sec =>
      simp only
      split
      · rcases blockRegexes L l f block regexes s with ⟨s1, _ | err⟩
        · exact ih _
        · rfl
      · exact ih _

theorem tokenLoop_append (L : Libs) (l : Linter) (inline : Str) (exts : List Str)
    (pre post : List (Str × List Str)) (s : Str) :
    tokenLoop L l inline exts (pre ++ post) s
      = match tokenLoop L l inline exts pre s with
        | (s1, some err) => (s1, some err)
        | (s1, none) => tokenLoop L l inline exts post s1 := by
  induction pre generalizing s with
  | nil => rfl
  | cons e pre ih =>
    obtain ⟨syntx, regexes⟩ := e
    simp only [List.cons_append, tokenLoop]
    cases L.globCompile syntx with
    | error e => rfl
    | ok sec =>
      simp only
      split
      · rcases tokenRegexes L l inline regexes s with ⟨s1, _ | err⟩
        · exact ih _
        · rfl
      · exact ih _

/-! ## A pattern that fails to compile is reached or preceded by an error -/

theorem blockRegexes_fatal (L : Libs) (l : Linter) (f : File) (block : Str)
    (rs : List Str) (r errc : Str) (hr : r ∈ rs) (herr : L.compileStd r = .error errc)
    (s : Str) : (blockRegexes L l f block rs s).2 ≠ none := by
  induction rs generalizing s with
  | nil => simp at hr
  | cons r0 rs ih =>
    simp only [blockRegexes]
    rcases List.mem_cons.mp hr with h | h
    · subst h
      simp [herr]
    · cases L.compileStd r0 with
      | error e => simp
      | ok pat =>
        simp only
        split
        · exact ih h _
        · rcases Replace L pat s block with ⟨s1, _ | err⟩
          · exact ih h _
          · simp

theorem tokenRegexes_fatal (L : Libs) (l : Linter) (inline : Str)
    (rs : List Str) (r errc : Str) (hr : r ∈ rs) (herr : L.compileStd r = .error errc)
    (s : Str) : (tokenRegexes L l inline rs s).2 ≠ none := by
  induction rs generalizing s with
  | nil => simp at hr
  | cons r0 rs ih =>
    simp only [tokenRegexes]
    rcases List.mem_cons.mp hr with h | h
    · subst h
      simp [herr]
    · cases L.compileStd r0 with
      | error e => simp
      | ok pat =>
        simp only
        rcases Replace L pat s inline with ⟨s1, _ | err⟩
        · exact ih h _
        · simp

theorem blockLoop_fatal (L : Libs) (l : Linter) (f : File) (block : Str) (exts : List Str)
    (rules : List (Str × List Str)) (e : Str × List Str) (he : e ∈ rules) (sec : L.Glob)
    (hglob : L.globCompile e.1 = .ok sec) (hmatch : L.matchAny sec exts = true)
    (r errc : Str) (hr : r ∈ e.2) (herr : L.compileStd r = .error errc) (s : Str) :
    (blockLoop L l f block exts rules s).2 ≠ none := by
  induction rules generalizing s with
  | nil => simp at he
  | cons e0 rules ih =>
    obtain ⟨syntx, regexes⟩ := e0
    simp only [blockLoop]
    rcases List.mem_cons.mp he with h | h
    · subst h
      simp only at hglob hr
      simp only [hglob, hmatch, if_true]
      have := blockRegexes_fatal L l f block regexes r errc hr herr s
      rcases hres : blockRegexes L l f block regexes s with ⟨s1, _ | err⟩
      · rw [hres] at this
        exact absurd rfl this
      · simp
    · cases L.globCompile syntx with
      | error e => simp
      | ok sec0 =>
        simp only
        split
        · rcases blockRegexes L l f block regexes s with ⟨s1, _ | err⟩
          · exact ih h _
          · simp
        · exact ih h _

theorem tokenLoop_fatal (L : Libs) (l : Linter) (inline : Str) (exts : List Str)
    (rules : List (Str × List Str)) (e : Str × List Str) (he : e ∈ rules) (sec : L.Glob)
    (hglob : L.globCompile e.1 = .ok sec) (hmatch : L.matchAny sec exts = true)
    (r errc : Str) (hr : r ∈ e.2) (herr : L.compileStd r = .error errc) (s : Str) :
    (tokenLoop L l inline exts rules s).2 ≠ none := by
  induction rules generalizing s with
  | nil => simp at he
  | cons e0 rules ih =>
    obtain ⟨syntx, regexes⟩ := e0
    simp only [tokenLoop]
    rcases List.mem_cons.mp he with h | h
    · subst h
      simp only at hglob hr
      simp only [hglob, hmatch, if_true]
      have := tokenRegexes_fatal L l inline regexes r errc hr herr s
      rcases hres : tokenRegexes L l inline regexes s with ⟨s1, _ | err⟩
      · rw [hres] at this
        exact absurd rfl this
      · simp
    · cases L.globCompile syntx with
      | error e => simp
      | ok sec0 =>
        simp only
        split
        · rcases tokenRegexes L l inline regexes s with ⟨s1, _ | err⟩
          · exact ih h _
          · simp
        · exact ih h _

/-! ## The patterns of an entry whose glob does not match are not looked at -/

theorem blockRegexes_path (L : Libs) (l k : Linter) (f : File) (block : Str)
    (h : k.Manager.Config.Flags = l.Manager.Config.Flags) (rs : List Str) (s : Str) :
    blockRegexes L k f block rs s = blockRegexes L l f block rs s := by
  induction rs generalizing s with
  | nil => rfl
  | cons r rs ih =>
    simp only [blockRegexes, h]
    cases L.compileStd r with
    | error e => rfl
    | ok pat =>
      simp only
      split
      · exact ih _
      · rcases Replace L pat s block with ⟨s1, _ | err⟩
        · exact ih _
        · rfl

theorem tokenRegexes_path (L : Libs) (l k : Linter) (inline : Str)
    (h : k.Manager.Config.Flags = l.Manager.Config.Flags) (rs : List Str) (s : Str) :
    tokenRegexes L k inline rs s = tokenRegexes L l inline rs s := by
  induction rs generalizing s with
  | nil => rfl
  | cons r rs ih =>
    simp only [tokenRegexes, h]
    cases L.compileStd r with
    | error e => rfl
    | ok pat =>
      simp only
      rcases Replace L pat s inline with ⟨s1, _ | err⟩
      · exact ih _
      · rfl

theorem blockLoop_path (L : Libs) (l k : Linter) (f : File) (block : Str) (exts : List Str)
    (h : k.Manager.Config.Flags = l.Manager.Config.Flags)
    (rules : List (Str × List Str)) (s : Str) :
    blockLoop L k f block exts rules s = blockLoop L l f block exts rules s := by
  induction rules generalizing s with
  | nil => rfl
  | cons e rules ih =>
    obtain ⟨syntx, regexes⟩ := e
    simp only [blockLoop, blockRegexes_path L l k f block h]
    cases L.globCompile syntx with
    | error e => rfl
    | ok sec =>
      simp only
      split
      · rcases blockRegexes L l f block regexes s with ⟨s1, _ | err⟩
        · exact ih _
        · rfl
      · exact ih _

theorem tokenLoop_path (L : Libs) (l k : Linter) (inline : Str) (exts : List Str)
    (h : k.Manager.Config.Flags = l.Manager.Config.Flags)
    (rules : List (Str × List Str)) (s : Str) :
    tokenLoop L k inline exts rules s = tokenLoop L l inline exts rules s := by
  induction rules generalizing s with
  | nil => rfl
  | cons e rules ih =>
    obtain ⟨syntx, regexes⟩ := e
    simp only [tokenLoop, tokenRegexes_path L l k inline h]
    cases L.globCompile syntx with
    | error e => rfl
    | ok sec =>
      simp only
      split
      · rcases tokenRegexes L l inline regexes s with ⟨s1, _ | err⟩
        · exact ih _
        · rfl
      · exact ih _

theorem blockLoop_skip (L : Libs) (l : Linter) (f : File) (block : Str) (exts : List Str)
    (syntx : Str) (rs rs1 : List Str) (post : List (Str × List Str))
    (h : ∀ sec, L.globCompile syntx = .ok sec → L.matchAny sec exts = false) (s : Str) :
    blockLoop L l f block exts ((syntx, rs) :: post) s
      = blockLoop L l f block exts ((syntx, rs1) :: post) s := by
  simp only [blockLoop]
  cases hg : L.globCompile syntx with
  | error e => rfl
  | ok sec => simp [h sec hg]

theorem tokenLoop_skip (L : Libs) (l : Linter) (inline : Str) (exts : List Str)
    (syntx : Str) (rs rs1 : List Str) (post : List (Str × List Str))
    (h : ∀ sec, L.globCompile syntx = .ok sec → L.matchAny sec exts = false) (s : Str) :
    tokenLoop L l inline exts ((syntx, rs) :: post) s
      = tokenLoop L l inline exts ((syntx, rs1) :: post) s := by
  simp only [tokenLoop]
  cases hg : L.globCompile syntx with
  | error e => rfl
  | ok sec => simp [h sec hg]

/-! ## C5: a pattern that fails to compile -/

/-- C5. (1) When a Block or Token entry whose glob matches the document holds a
pattern that fails to compile, `applyPatterns` returns an error, in whatever
order the entries are visited.  (2, 3) When the run reaches such a pattern
without an earlier error, it stops there: the error is the one
`core.NewE201FromTarget` builds from the message of the compile error, the
text of the pattern and `Config.Flags.Path`, and the text returned is the text
as the patterns before it left it, whatever patterns and entries follow.
(4, 5) The patterns of an entry whose glob does not match the document are
never compiled: replacing them by any other patterns leaves the result
unchanged. -/
theorem compile_failure_is_fatal (L : Libs) (l : Linter) (f : File) (block inline : Str) :
    ((∃ e ∈ l.Manager.Config.BlockIgnores ++ l.Manager.Config.TokenIgnores,
        ∃ sec, L.globCompile e.1 = .ok sec ∧ L.matchAny sec [f.NormedExt, f.RealExt] = true ∧
          ∃ r ∈ e.2, ∃ errc, L.compileStd r = .error errc) →
      (applyPatterns L l f block inline).2 ≠ none)
    ∧ (∀ (pre post : List (Str × List Str)) (syntx r errc : Str) (rs1 rs2 : List Str)
        (sec : L.Glob) (s1 s2 : Str),
        l.Manager.Config.BlockIgnores = pre ++ (syntx, rs1 ++ r :: rs2) :: post →
        blockLoop L l f block [f.NormedExt, f.RealExt] pre
          (reFrontMatterReplaceAllString L f.Content block) = (s1, none) →
        L.globCompile syntx = .ok sec →
        L.matchAny sec [f.NormedExt, f.RealExt] = true →
        blockRegexes L l f block rs1 s1 = (s2, none) →
        L.compileStd r = .error errc →
        applyPatterns L l f block inline
          = (s2, some (L.newE201FromTarget errc r l.Manager.Config.Flags.Path)))
    ∧ (∀ (pre post : List (Str × List Str)) (syntx r errc : Str) (rs1 rs2 : List Str)
        (sec : L.Glob) (s1 s2 s3 : Str),
        l.Manager.Config.TokenIgnores = pre ++ (syntx, rs1 ++ r :: rs2) :: post →
        blockLoop L l f block [f.NormedExt, f.RealExt] l.Manager.Config.BlockIgnores
          (reFrontMatterReplaceAllString L f.Content block) = (s1, none) →
        tokenLoop L l inline [f.NormedExt, f.RealExt] pre s1 = (s2, none) →
        L.globCompile syntx = .ok sec →
        L.matchAny sec [f.NormedExt, f.RealExt] = true →
        tokenRegexes L l inline rs1 s2 = (s3, none) →
        L.compileStd r = .error errc →
        applyPatterns L l f block inline
          = (s3, some (L.newE201FromTarget errc r l.Manager.Config.Flags.Path)))
    ∧ (∀ (k : Linter) (pre post : List (Str × List Str)) (syntx : Str) (rs rs1 : List Str),
        l.Manager.Config.BlockIgnores = pre ++ (syntx, rs) :: post →
        k.Manager.Config.BlockIgnores = pre ++ (syntx, rs1) :: post →
        k.Manager.Config.TokenIgnores = l.Manager.Config.TokenIgnores →
        k.Manager.Config.Flags = l.Manager.Config.Flags →
        (∀ sec, L.globCompile syntx = .ok sec →
          L.matchAny sec [f.NormedExt, f.RealExt] = false) →
        applyPatterns L k f block inline = applyPatterns L l f block inline)
    ∧ (∀ (k : Linter) (pre post : List (Str × List Str)) (syntx : Str) (rs rs1 : List Str),
        l.Manager.Config.TokenIgnores = pre ++ (syntx, rs) :: post →
        k.Manager.Config.TokenIgnores = pre ++ (syntx, rs1) :: post →
        k.Manager.Config.BlockIgnores = l.Manager.Config.BlockIgnores →
        k.Manager.Config.Flags = l.Manager.Config.Flags →
        (∀ sec, L.globCompile syntx = .ok sec →
          L.matchAny sec [f.NormedExt, f.RealExt] = false) →
        applyPatterns L k f block inline = applyPatterns L l f block inline) := by
  refine ⟨?_, ?_, ?_, ?_, ?_⟩
  · rintro ⟨e, he, sec, hglob, hmatch, r, hr, errc, herr⟩
    simp only [applyPatterns]
    rcases List.mem_append.mp he with hb | ht
    · have := blockLoop_fatal L l f block [f.NormedExt, f.RealExt] _ e hb sec hglob hmatch
        r errc hr herr (reFrontMatterReplaceAllString L f.Content block)
      rcases hres : blockLoop L l f block [f.NormedExt, f.RealExt]
        l.Manager.Config.BlockIgnores (reFrontMatterReplaceAllString L f.Content block)
        with ⟨s1, _ | err⟩
      · rw [hres] at this
        exact absurd rfl this
      · simp
    · rcases blockLoop L l f block [f.NormedExt, f.RealExt]
        l.Manager.Config.BlockIgnores (reFrontMatterReplaceAllString L f.Content block)
        with ⟨s1, _ | err⟩
      · exact tokenLoop_fatal L l inline [f.NormedExt, f.RealExt] _ e ht sec hglob hmatch
          r errc hr herr s1
      · simp
  · intro pre post syntx r errc rs1 rs2 sec s1 s2 hrules hpre hglob hmatch hrs1 herr
    simp only [applyPatterns, hrules, blockLoop_append, hpre, blockLoop, hglob, hmatch,
      if_true, blockRegexes_append, hrs1, blockRegexes, herr]
  · intro pre post syntx r errc rs1 rs2 sec s1 s2 s3 hrules hblock hpre hglob hmatch hrs1 herr
    simp only [applyPatterns, hblock, hrules, tokenLoop_append, hpre, tokenLoop, hglob,
      hmatch, if_true, tokenRegexes_append, hrs1, tokenRegexes, herr]
  · intro k pre post syntx rs rs1 hl hk htok hflags hskip
    simp only [applyPatterns, hl, hk, htok]
    rw [blockLoop_path L l k f block _ hflags, blockLoop_append, blockLoop_append]
    rcases blockLoop L l f block [f.NormedExt, f.RealExt] pre
      (reFrontMatterReplaceAllString L f.Content block) with ⟨s1, _ | err⟩
    · simp only
      rw [blockLoop_skip L l f block _ syntx rs1 rs post hskip]
      rcases blockLoop L l f block [f.NormedExt, f.RealExt] ((syntx, rs) :: post) s1
        with ⟨s2, _ | err⟩
      · exact tokenLoop_path L l k inline _ hflags _ _
      · rfl
    · rfl
  · intro k pre post syntx rs rs1 hl hk hblk hflags hskip
    simp only [applyPatterns, hl, hk, hblk]
    rw [blockLoop_path L l k f block _ hflags]
    rcases blockLoop L l f block [f.NormedExt, f.RealExt] l.Manager.Config.BlockIgnores
      (reFrontMatterReplaceAllString L f.Content block) with ⟨s1, _ | err⟩
    · simp only
      rw [tokenLoop_path L l k inline _ hflags, tokenLoop_append, tokenLoop_append]
      rcases tokenLoop L l inline [f.NormedExt, f.RealExt] pre s1 with ⟨s2, _ | err⟩
      · simp only
        rw [tokenLoop_skip L l inline _ syntx rs1 rs post hskip]
      · rfl
    · rfl

theorem compile_failure_is_fatal_witness :
    applyPatterns demoLibs (linterWith brokenRules codeRule) mdDoc "XXX".toList mdInline
      = ("some XXX here".toList,
          some (DemoErr.e201 "error parsing regexp: missing closing ) in `(`".toList
            "(".toList ".vale.ini".toList)) :=
  (compile_failure_is_fatal demoLibs (linterWith brokenRules codeRule) mdDoc "XXX".toList
    mdInline).2.1 [] [] "*.md".toList "(".toList missingParen ["code".toList]
    ["here".toList] "*.md".toList "some code here".toList "some XXX here".toList
    rfl rfl rfl (by decide) (by decide) rfl

/-! ## Newlines and replacements -/

theorem newlines_append (a b : Str) : newlines (a ++ b) = newlines a + newlines b := by
  simp [newlines]

theorem lineCount_eq (s : Str) : lineCount s = newlines s + 1 := by
  induction s with
  | nil => rfl
  | cons c s ih =>
    unfold lineCount at ih ⊢
    by_cases hc : c = '\n'
    · subst hc
      rw [lines_nl_cons]
      simp [newlines, ih] at ih ⊢
    · rw [lines_cons_of_ne hc]
      have hne := lines_ne_nil s
      have hcount : newlines (c :: s) = newlines s := by
        simp [newlines, List.count_cons, Ne.symm hc]
      rw [hcount, ← ih]
      cases h : lines s with
      | nil => exact absurd h hne
      | cons l ls => simp

theorem replaceFirst_newlines (s old new : Str)
    (h : old = [] ∨ (cutFirst old s).isSome → newlines new = newlines old) :
    newlines (replaceFirst s old new) = newlines s := by
  cases old with
  | nil =>
    have := h (Or.inl rfl)
    simp only [replaceFirst, newlines_append, this]
    simp [newlines]
  | cons c t =>
    simp only [replaceFirst]
    cases hcut : cutFirst (c :: t) s with
    | none => rfl
    | some ab =>
      obtain ⟨a, b⟩ := ab
      have hnew := h (Or.inr (by simp [hcut]))
      have hs := cutFirst_spec hcut
      simp only
      rw [hs]
      simp only [newlines_append, hnew]

theorem rstLoop_newlines (L : Libs) (block : Str) (cs : List (Str × List Str)) (s : Str)
    (h : ∀ e ∈ rstEdits L block cs s, newlines e.2 = newlines e.1) :
    newlines (rstLoop L block cs s) = newlines s := by
  induction cs generalizing s with
  | nil => rfl
  | cons c cs ih =>
    simp only [rstLoop]
    simp only [rstEdits, List.mem_append] at h
    rw [ih _ fun e he => h e (Or.inr he)]
    apply replaceFirst_newlines
    intro hc
    exact h (c.1, L.sprintf block (Indent c.1 padding)) (Or.inl (by simp [hc]))

theorem flatMap_newlines (ms : List Match) (ins : Match → Str)
    (h : ∀ m ∈ ms, newlines (ins m) = newlines m.whole) :
    newlines (ms.flatMap fun m => m.gap ++ ins m)
      = newlines (ms.flatMap fun m => m.gap ++ m.whole) := by
  induction ms with
  | nil => rfl
  | cons m ms ih =>
    simp only [List.flatMap_cons, newlines_append]
    rw [ih fun x hx => h x (List.mem_cons_of_mem _ hx), h m (List.mem_cons_self _ _)]

theorem Replace_snd_none (L : Libs) (pat : L.Pat) (s repl : Str)
    (h : (Replace L pat s repl).2 = none) : L.replaceFault pat s repl = none := by
  unfold Replace at h
  cases hf : L.replaceFault pat s repl with
  | none => rfl
  | some x =>
    rw [hf] at h
    cases h

theorem Replace_newlines (L : Libs) (pat : L.Pat) (s repl : Str)
    (hcover : unsplice (L.findAll pat s) = s)
    (hfault : L.replaceFault pat s repl = none)
    (h : ∀ e ∈ replaceEdits L pat s repl, newlines e.2 = newlines e.1) :
    newlines (Replace L pat s repl).1 = newlines s := by
  simp only [replaceEdits, hfault] at h
  simp only [Replace, hfault]
  conv_rhs => rw [← hcover]
  simp only [unsplice, newlines_append]
  rw [flatMap_newlines _ (fun m => L.expand pat repl m)]
  intro m hm
  exact h (m.whole, L.expand pat repl m) (List.mem_map.mpr ⟨m, hm, rfl⟩)

theorem frontMatter_newlines (L : Libs) (content repl : Str)
    (h : ∀ e ∈ frontMatterEdits L content repl, newlines e.2 = newlines e.1) :
    newlines (reFrontMatterReplaceAllString L content repl) = newlines content := by
  unfold reFrontMatterReplaceAllString
  unfold frontMatterEdits at h
  cases hfind : reFrontMatterFind content with
  | none => rfl
  | some m =>
    rw [hfind] at h
    obtain ⟨o, c, _, _, _, _, hcontent⟩ := reFrontMatterFind_some hfind
    have := h (m.whole, L.expandStd repl m.whole m.capture) (by simp)
    simp only at this ⊢
    rw [newlines_append, this, hcontent, newlines_append]

theorem blockRegexes_newlines (L : Libs) (l : Linter) (f : File) (block : Str)
    (hcover : ∀ pat s, unsplice (L.findAll pat s) = s) (rs : List Str) (s : Str)
    (h : ∀ e ∈ blockRegexesEdits L l f block rs s, newlines e.2 = newlines e.1)
    (hok : (blockRegexes L l f block rs s).2 = none
      ∨ ∀ pat s repl, L.replaceFault pat s repl = none) :
    newlines (blockRegexes L l f block rs s).1 = newlines s := by
  induction rs generalizing s with
  | nil => rfl
  | cons r rs ih =>
    simp only [blockRegexes, blockRegexesEdits] at h hok ⊢
    cases hc : L.compileStd r with
    | error e => rfl
    | ok pat =>
      simp only [hc] at h hok ⊢
      by_cases hrst : hasSuffix f.NormedExt rstExt = true
      · simp only [hrst, if_true, List.mem_append] at h hok ⊢
        rw [ih _ (fun e he => h e (Or.inr he)) hok]
        exact rstLoop_newlines L block _ s fun e he => h e (Or.inl he)
      · simp only [Bool.not_eq_true] at hrst
        simp only [hrst, Bool.false_eq_true, if_false, List.mem_append] at h hok ⊢
        have hfault : L.replaceFault pat s block = none := by
          rcases hok with hok | hok
          · apply Replace_snd_none
            rcases hrep : Replace L pat s block with ⟨s1, _ | err⟩
            · rfl
            · rw [hrep] at hok
              cases hok
          · exact hok pat s block
        have hnl := Replace_newlines L pat s block (hcover pat s) hfault
          fun e he => h e (Or.inl he)
        rcases hrep : Replace L pat s block with ⟨s1, _ | err⟩
        · rw [hrep] at h hok hnl
          simp only at h hok hnl ⊢
          rw [ih _ (fun e he => h e (Or.inr he)) hok, hnl]
        · have : (Replace L pat s block).2 = none := by
            simp only [Replace, hfault]
          rw [hrep] at this
          cases this

theorem tokenRegexes_newlines (L : Libs) (l : Linter) (inline : Str)
    (hcover : ∀ pat s, unsplice (L.findAll pat s) = s) (rs : List Str) (s : Str)
    (h : ∀ e ∈ tokenRegexesEdits L l inline rs s, newlines e.2 = newlines e.1)
    (hok : (tokenRegexes L l inline rs s).2 = none
      ∨ ∀ pat s repl, L.replaceFault pat s repl = none) :
    newlines (tokenRegexes L l inline rs s).1 = newlines s := by
  induction rs generalizing s with
  | nil => rfl
  | cons r rs ih =>
    simp only [tokenRegexes, tokenRegexesEdits] at h hok ⊢
    cases hc : L.compileStd r with
    | error e => rfl
    | ok pat =>
      simp only [hc, List.mem_append] at h hok ⊢
      have hfault : L.replaceFault pat s inline = none := by
        rcases hok with hok | hok
        · apply Replace_snd_none
          rcases hrep : Replace L pat s inline with ⟨s1, _ | err⟩
          · rfl
          · rw [hrep] at hok
            cases hok
        · exact hok pat s inline
      have hnl := Replace_newlines L pat s inline (hcover pat s) hfault
        fun e he => h e (Or.inl he)
      rcases hrep : Replace L pat s inline with ⟨s1, _ | err⟩
      · rw [hrep] at h hok hnl
        simp only at h hok hnl ⊢
        rw [ih _ (fun e he => h e (Or.inr he)) hok, hnl]
      · have : (Replace L pat s inline).2 = none := by
          simp only [Replace, hfault]
        rw [hrep] at this
        cases this

theorem blockLoop_newlines (L : Libs) (l : Linter) (f : File) (block : Str)
    (exts : List Str) (hcover : ∀ pat s, unsplice (L.findAll pat s) = s)
    (rules : List (Str × List Str)) (s : Str)
    (h : ∀ e ∈ blockLoopEdits L l f block exts rules s, newlines e.2 = newlines e.1)
    (hok : (blockLoop L l f block exts rules s).2 = none
      ∨ ∀ pat s repl, L.replaceFault pat s repl = none) :
    newlines (blockLoop L l f block exts rules s).1 = newlines s := by
  induction rules generalizing s with
  | nil => rfl
  | cons e rules ih =>
    obtain ⟨syntx, regexes⟩ := e
    simp only [blockLoop, blockLoopEdits] at h hok ⊢
    cases hg : L.globCompile syntx with
    | error e => rfl
    | ok sec =>
      simp only [hg] at h hok ⊢
      by_cases hm : L.matchAny sec exts = true
      · simp only [hm, if_true, List.mem_append] at h hok ⊢
        have hok1 : (blockRegexes L l f block regexes s).2 = none
            ∨ ∀ pat s repl, L.replaceFault pat s repl = none := by
          rcases hok with hok | hok
          · left
            rcases hres : blockRegexes L l f block regexes s with ⟨s1, _ | err⟩
            · rfl
            · rw [hres] at hok
              cases hok
          · exact Or.inr hok
        have hnl := blockRegexes_newlines L l f block hcover regexes s
          (fun e he => h e (Or.inl he)) hok1
        rcases hres : blockRegexes L l f block regexes s with ⟨s1, _ | err⟩
        · rw [hres] at h hok hnl
          simp only at h hok hnl ⊢
          rw [ih _ (fun e he => h e (Or.inr he)) hok, hnl]
        · rw [hres] at hnl
          exact hnl
      · simp only [Bool.not_eq_true] at hm
        simp only [hm, Bool.false_eq_true, if_false] at h hok ⊢
        exact ih _ h hok

theorem tokenLoop_newlines (L : Libs) (l : Linter) (inline : Str)
    (exts : List Str) (hcover : ∀ pat s, unsplice (L.findAll pat s) = s)
    (rules : List (Str × List Str)) (s : Str)
    (h : ∀ e ∈ tokenLoopEdits L l inline exts rules s, newlines e.2 = newlines e.1)
    (hok : (tokenLoop L l inline exts rules s).2 = none
      ∨ ∀ pat s repl, L.replaceFault pat s repl = none) :
    newlines (tokenLoop L l inline exts rules s).1 = newlines s := by
  induction rules generalizing s with
  | nil => rfl
  | cons e rules ih =>
    obtain ⟨syntx, regexes⟩ := e
    simp only [tokenLoop, tokenLoopEdits] at h hok ⊢
    cases hg : L.globCompile syntx with
    | error e => rfl
    | ok sec =>
      simp only [hg] at h hok ⊢
      by_cases hm : L.matchAny sec exts = true
      · simp only [hm, if_true, List.mem_append] at h hok ⊢
        have hok1 : (tokenRegexes L l inline regexes s).2 = none
            ∨ ∀ pat s repl, L.replaceFault pat s repl = none := by
          rcases hok with hok | hok
          · left
            rcases hres : tokenRegexes L l inline regexes s with ⟨s1, _ | err⟩
            · rfl
            · rw [hres] at hok
              cases hok
          · exact Or.inr hok
        have hnl := tokenRegexes_newlines L l inline hcover regexes s
          (fun e he => h e (Or.inl he)) hok1
        rcases hres : tokenRegexes L l inline regexes s with ⟨s1, _ | err⟩
        · rw [hres] at h hok hnl
          simp only at h hok hnl ⊢
          rw [ih _ (fun e he => h e (Or.inr he)) hok, hnl]
        · rw [hres] at hnl
          exact hnl
      · simp only [Bool.not_eq_true] at hm
        simp only [hm, Bool.false_eq_true, if_false] at h hok ⊢
        exact ih _ h hok

/-! ## C4: masking preserves the line count -/

/-- C4. Let the engine report its matches faithfully (the unmatched texts and
the matches, put together, are the text that was searched).  If every
replacement that a run of `applyPatterns` performs (of the front matter, of a
match on the padded path, of a match in `pat.Replace`) inserts a text with as
many newlines as the text it replaces, and the run returns no error or the
engine has no internal fault, then the returned text has as many lines as the
content of the document. -/
theorem masking_preserves_line_count (L : Libs) (l : Linter) (f : File)
    (block inline : Str)
    (hcover : ∀ pat s, unsplice (L.findAll pat s) = s)
    (hedits : ∀ e ∈ applyPatternsEdits L l f block inline, newlines e.2 = newlines e.1)
    (hok : (applyPatterns L l f block inline).2 = none
      ∨ ∀ pat s repl, L.replaceFault pat s repl = none) :
    lineCount (applyPatterns L l f block inline).1 = lineCount f.Content := by
  rw [lineCount_eq, lineCount_eq]
  congr 1
  simp only [applyPatterns, applyPatternsEdits, List.mem_append] at hedits hok ⊢
  have hfm := frontMatter_newlines L f.Content block fun e he => hedits e (Or.inl (Or.inl he))
  have hok1 : (blockLoop L l f block [f.NormedExt, f.RealExt] l.Manager.Config.BlockIgnores
        (reFrontMatterReplaceAllString L f.Content block)).2 = none
      ∨ ∀ pat s repl, L.replaceFault pat s repl = none := by
    rcases hok with hok | hok
    · left
      rcases hres : blockLoop L l f block [f.NormedExt, f.RealExt]
        l.Manager.Config.BlockIgnores (reFrontMatterReplaceAllString L f.Content block)
        with ⟨s1, _ | err⟩
      · rfl
      · rw [hres] at hok
        cases hok
    · exact Or.inr hok
  have hnl := blockLoop_newlines L l f block [f.NormedExt, f.RealExt] hcover
    l.Manager.Config.BlockIgnores (reFrontMatterReplaceAllString L f.Content block)
    (fun e he => hedits e (Or.inl (Or.inr he))) hok1
  rcases hres : blockLoop L l f block [f.NormedExt, f.RealExt]
    l.Manager.Config.BlockIgnores (reFrontMatterReplaceAllString L f.Content block)
    with ⟨s1, _ | err⟩
  · rw [hres] at hedits hok hnl
    simp only at hedits hok hnl ⊢
    rw [tokenLoop_newlines L l inline [f.NormedExt, f.RealExt] hcover _ s1
      (fun e he => hedits e (Or.inr he)) hok, hnl, hfm]
  · rw [hres] at hnl
    simp only at hnl ⊢
    rw [hnl, hfm]

theorem literalScan_covers (p : Str) (fuel : Nat) (s : Str) :
    unsplice (literalScan p fuel s) = s := by
  induction fuel generalizing s with
  | zero => simp [literalScan, unsplice]
  | succ n ih =>
    unfold literalScan
    cases hcut : cutFirst p s with
    | none => simp [unsplice]
    | some ab =>
      obtain ⟨a, b⟩ := ab
      have hb := ih b
      have hs := cutFirst_spec hcut
      simp only [unsplice, List.flatMap_cons, List.append_assoc] at hb ⊢
      rw [hb, hs]
      simp

/-- With fuel for the length of the text, the scan for a non-empty literal
leaves no occurrence behind. -/
theorem literalScan_complete (p : Str) (hp : p ≠ []) (fuel : Nat) (s : Str)
    (hfuel : s.length ≤ fuel) : cutFirst p (literalScan p fuel s).2 = none := by
  induction fuel generalizing s with
  | zero =>
    have hs : s = [] := List.eq_nil_of_length_eq_zero (by omega)
    subst hs
    rfl
  | succ n ih =>
    unfold literalScan
    cases hcut : cutFirst p s with
    | none => simpa using hcut
    | some ab =>
      obtain ⟨a, b⟩ := ab
      have hs := cutFirst_spec hcut
      have hlen : b.length ≤ n := by
        have h1 : s.length = a.length + p.length + b.length := by
          rw [hs]
          simp only [List.length_append]
        have h2 : 0 < p.length := List.length_pos.mpr hp
        omega
      exact ih b hlen

theorem masking_preserves_line_count_witness :
    applyPatterns demoLibs (linterWith [] codeRule) fiveLineDoc "x\n$1\ny".toList
        "masked".toList = ("x\nkey: val\ny\nsome masked here\nend".toList, none)
    ∧ lineCount (applyPatterns demoLibs (linterWith [] codeRule) fiveLineDoc
        "x\n$1\ny".toList "masked".toList).1 = lineCount fiveLineDoc.Content :=
  ⟨by decide,
   masking_preserves_line_count demoLibs (linterWith [] codeRule) fiveLineDoc
    "x\n$1\ny".toList "masked".toList (fun pat s => literalScan_covers pat s.length s)
    (by decide) (Or.inl (by decide))⟩

end Vale
